import Mathlib

/-!
A shallow embedding of the probabilistic Top-K ("Space-Saving") sketch
implemented in src/src/probabilistic/Topk.cc (class zeek::probabilistic::detail::TopkVal).

Modelling conventions:

* Values are an abstract type V with decidable equality; the zeek type system is
  abstracted to a type T of type descriptors together with a function
  typeOf : V → T.  The composite-hash collaborator produces keys that are equal
  exactly when values are equal, so the element dictionary (elementDict, a
  PDict keyed by the hash of the value) is modelled as lookup-by-value.
* In the C++ code the element dictionary and the bucket chain always hold the
  same set of elements (every insertion/removal updates both), so the
  dictionary is modelled as a search over the bucket chain (splitAtElem below);
  the Element::parent back-pointer is the bucket that contains the element.
* Machine integers (uint64_t counts) are modelled as Nat: all counter
  operations in the source only add small deltas, and overflow behaviour is
  not part of any claim.
* Fallible paths — failed C++ assert(...), and the one place Encountered
  dereferences begin() of an empty std::list — are modelled by Except CFail;
  each CFail constructor names the assert / undefined operation it stands for.
  Paths that merely report a diagnostic through reporter->Error and return
  leave the sketch unchanged and are NOT failures (they return .ok).
-/

namespace Topk

/-- An element record (struct Element): the observed value and its error
bound.  The parent pointer of the C++ struct is represented implicitly as
the bucket that contains the element. -/
structure Element (V : Type) where
  value : V
  epsilon : Nat
deriving DecidableEq, Repr

/-- A bucket (struct Bucket): the shared count and the insertion-ordered
element list.  The bucketPos iterator is the bucket's position in the chain
and is implicit in the list representation. -/
structure Bucket (V : Type) where
  count : Nat
  elements : List (Element V)
deriving DecidableEq, Repr

/-- The sketch (class TopkVal).  Fields keep the C++ member names:
size (capacity), numElements, pruned, type (none until typified) and the
bucket chain.  elementDict is modelled as search over the chain. -/
structure TopkVal (V T : Type) where
  size : Nat
  numElements : Nat
  pruned : Bool
  type : Option T
  buckets : List (Bucket V)
deriving DecidableEq, Repr

/-- TopkVal::TopkVal(uint64_t arg_size): capacity arg_size, no elements,
not pruned, no type. -/
def topkInit (V T : Type) (argSize : Nat) : TopkVal V T :=
  ⟨argSize, 0, false, none, []⟩

/-- TopkVal::TopkVal(): the default constructor, capacity 0. -/
def topkDefault (V T : Type) : TopkVal V T :=
  ⟨0, 0, false, none, []⟩

/-- Failure outcomes: each constructor names a C++ assert(...) that fails, or
an operation with undefined behaviour, on the corresponding code path. -/
inductive CFail where
  /-- Typify's assert(!hash && !type): called while a type is already set. -/
  | typifyTwice
  /-- Merge's assert(value->numElements == 0) for an untyped source. -/
  | mergeSourceNotEmpty
  /-- Merge's assert(numElements == 0) before typifying the receiver. -/
  | mergeReceiverNotEmpty
  /-- Merge's assert(buckets.front()->count > 0) before the head insert. -/
  | frontCountZero
  /-- Merge's assert(size > 0) after the element copy loop. -/
  | sizeNotPositive
  /-- The prune loop's assert(buckets.size() > 0). -/
  | pruneNoBuckets
  /-- The prune loop's assert(b->elements.size() > 0). -/
  | pruneEmptyBucket
  /-- Encountered dereferences *buckets.begin() on an empty chain (UB). -/
  | ubEmptyBuckets
  /-- Encountered's assert(b->elements.size() > 0) on the head bucket. -/
  | emptyHeadBucket
  /-- Encountered's assert(b->count == 1) on the head bucket. -/
  | headCountNotOne
  /-- IncrementCounter is handed an element pointer not in the chain. -/
  | elementNotInChain
  /-- DoSerialize's assert(i == numElements) after emitting all buckets. -/
  | serializeCountMismatch
deriving DecidableEq, Repr

variable {V T : Type} [DecidableEq V] [DecidableEq T]

set_option linter.unusedSectionVars false

/-- All values currently retained, in chain order (the contents of
elementDict, which the code keeps in sync with the chain). -/
def chainValues (bs : List (Bucket V)) : List V :=
  (bs.flatMap (fun b => b.elements)).map (fun e => e.value)

/-- Dictionary lookup (elementDict->Lookup), splitting the chain at the bucket
that holds the value: returns (buckets before, holding bucket, buckets after,
the element record). -/
def splitAtElem : List (Bucket V) → V → Option (List (Bucket V) × Bucket V × List (Bucket V) × Element V)
  | [], _ => none
  | b :: rest, v =>
    match b.elements.find? (fun e => e.value = v) with
    | some e => some ([], b, rest, e)
    | none => (splitAtElem rest v).map (fun x => (b :: x.1, x.2.1, x.2.2.1, x.2.2.2))

/-- elementDict->Lookup(key): the element currently stored for a value. -/
def lookupElem (bs : List (Bucket V)) (v : V) : Option (Element V) :=
  (splitAtElem bs v).map (fun x => x.2.2.2)

/-- The count of the bucket holding a value (Element::parent->count). -/
def lookupCount (bs : List (Bucket V)) (v : V) : Option Nat :=
  (splitAtElem bs v).map (fun x => x.2.1.count)

/-- The search loop of TopkVal::IncrementCounter over the buckets after the
element's current bucket: skip buckets with count < target; if the next
bucket's count equals target, append the element at the end of its element
list; otherwise insert a fresh bucket with that count right there (before the
first bucket with count > target, or at the tail). -/
def bucketInsert (after : List (Bucket V)) (target : Nat) (e : Element V) : List (Bucket V) :=
  match after with
  | [] => [⟨target, [e]⟩]
  | b :: rest =>
    if b.count < target then b :: bucketInsert rest target e
    else if b.count = target then ⟨b.count, b.elements ++ [e]⟩ :: rest
    else ⟨target, [e]⟩ :: b :: rest

/-- TopkVal::IncrementCounter(Element* e, unsigned int count): move the
element from its current bucket to the bucket with count currcount + count
(created on demand via bucketInsert); drop the old bucket if it became
empty.  The C++ function follows a valid element pointer; a value not in the
chain is the pointer-invalid case, modelled as a failure. -/
def incrementCounter (s : TopkVal V T) (v : V) (count : Nat) : Except CFail (TopkVal V T) :=
  match splitAtElem s.buckets v with
  | none => .error .elementNotInChain
  | some (pre, cur, post, e) =>
    let remaining := cur.elements.eraseP (fun x => x.value = v)
    let post' := bucketInsert post (cur.count + count) e
    let chain := if remaining.isEmpty then pre ++ post'
                 else pre ++ ({ cur with elements := remaining } :: post')
    .ok { s with buckets := chain }

/-- The body of TopkVal::Encountered after the type check: dictionary lookup,
then the three cases of the source — existing element, new element with spare
capacity, or replacement of the oldest minimum element. -/
def encounteredCore (s : TopkVal V T) (v : V) : Except CFail (TopkVal V T) :=
  match lookupElem s.buckets v with
  | some _ => incrementCounter s v 1
  | none =>
    if s.numElements < s.size then
      match s.buckets with
      | [] =>
        .ok { s with buckets := [⟨1, [⟨v, 0⟩]⟩], numElements := s.numElements + 1 }
      | b :: rest =>
        if 1 < b.count then
          .ok { s with buckets := ⟨1, [⟨v, 0⟩]⟩ :: b :: rest, numElements := s.numElements + 1 }
        else if b.count = 1 then
          .ok { s with buckets := { b with elements := b.elements ++ [⟨v, 0⟩] } :: rest,
                       numElements := s.numElements + 1 }
        else .error .headCountNotOne
    else
      match s.buckets with
      | [] => .error .ubEmptyBuckets
      | b :: rest =>
        match b.elements with
        | [] => .error .emptyHeadBucket
        | _victim :: relems =>
          let e : Element V := ⟨v, b.count⟩
          let s' : TopkVal V T := { s with buckets := { b with elements := relems ++ [e] } :: rest }
          incrementCounter s' v 1

/-- TopkVal::Encountered(ValPtr): typify on the first element (Typify asserts
that no type is set yet), reject a value of a different type with a reported
error and no state change, then run the core update. -/
def encountered (typeOf : V → T) (s : TopkVal V T) (v : V) : Except CFail (TopkVal V T) :=
  if s.numElements = 0 then
    match s.type with
    | some _ => .error .typifyTwice
    | none => encounteredCore { s with type := some (typeOf v) } v
  else
    match s.type with
    | some t => if typeOf v = t then encounteredCore s v else .ok s
    | none => .ok s

/-- A stream of Encountered calls. -/
def encounteredStream (typeOf : V → T) (s : TopkVal V T) (vs : List V) : Except CFail (TopkVal V T) :=
  vs.foldlM (encountered typeOf) s

/-- TopkVal::GetCount(Val*): the holding bucket's count, or 0 with a reported
error when the value is not retained. -/
def getCount (s : TopkVal V T) (v : V) : Nat :=
  (lookupCount s.buckets v).getD 0

/-- TopkVal::GetEpsilon(Val*): the element's epsilon, or 0 with a reported
error when the value is not retained. -/
def getEpsilon (s : TopkVal V T) (v : V) : Nat :=
  ((lookupElem s.buckets v).map (fun e => e.epsilon)).getD 0

/-- TopkVal::GetSum(): sum over buckets of element count times bucket count. -/
def getSum (s : TopkVal V T) : Nat :=
  (s.buckets.map (fun b => b.elements.length * b.count)).sum

/-- The emission loop of TopkVal::GetTopK over the chain from the highest
bucket down (the reversed chain): before each bucket the loop checks
read < k, then emits the whole bucket. -/
def emitTopK : List (Bucket V) → Nat → Nat → List V
  | [], _, _ => []
  | b :: rest, k, read =>
    if read < k then (b.elements.map (fun e => e.value)) ++ emitTopK rest k (read + b.elements.length)
    else []

/-- TopkVal::GetTopK(int k): on an empty sketch report an error and return
nothing; otherwise emit whole buckets from the highest count down until at
least k values are out or the head bucket has been processed.  (A negative k
behaves like 0 in the source; k is modelled as Nat.) -/
def getTopK (s : TopkVal V T) (k : Nat) : Option (List V) :=
  if s.numElements = 0 then none
  else some (emitTopK s.buckets.reverse k 0)

/-- The line olde->epsilon += e->epsilon of TopkVal::Merge: add eps to the
epsilon of the element stored for v (it runs after the element is certain to
be present, for the pre-existing and the freshly created element alike). -/
def addEpsilon (bs : List (Bucket V)) (v : V) (eps : Nat) : List (Bucket V) :=
  bs.map (fun b =>
    { b with elements := b.elements.map (fun e =>
        if e.value = v then { e with epsilon := e.epsilon + eps } else e) })

/-- The guarded assert(buckets.front()->count > 0) that TopkVal::Merge runs
before staging a new element (only when the chain is non-empty). -/
def frontCheck (bs : List (Bucket V)) : Except CFail Unit :=
  match bs with
  | [] => .ok ()
  | b :: _ => if 0 < b.count then .ok () else .error .frontCountZero

/-- One iteration of the inner element loop of TopkVal::Merge: merge a source
element (value ev, error eps) coming from a source bucket of count currcount
into the receiver.  A known element gets eps added and its counter
incremented by currcount; an unknown one is staged in a fresh count-0 bucket
at the head of the chain (after the assert that the current head has positive
count), gets eps added, and is then moved into place by IncrementCounter. -/
def mergeElem (s : TopkVal V T) (ev : V) (eps currcount : Nat) : Except CFail (TopkVal V T) :=
  match lookupElem s.buckets ev with
  | some _ =>
    incrementCounter { s with buckets := addEpsilon s.buckets ev eps } ev currcount
  | none =>
    (frontCheck s.buckets).bind (fun _ =>
      incrementCounter
        { s with buckets := addEpsilon (⟨0, [⟨ev, 0⟩]⟩ :: s.buckets) ev eps,
                 numElements := s.numElements + 1 } ev currcount)

/-- The outer bucket loop of TopkVal::Merge: merge every element of every
source bucket, lowest count first. -/
def mergeAll (s : TopkVal V T) (srcBuckets : List (Bucket V)) : Except CFail (TopkVal V T) :=
  srcBuckets.foldlM
    (fun acc b => b.elements.foldlM (fun acc2 e => mergeElem acc2 e.value e.epsilon b.count) acc) s

/-- One iteration of the prune loop of TopkVal::Merge: set pruned, discard the
first element of the head bucket, and drop the bucket if it became empty. -/
def pruneOnce (s : TopkVal V T) : Except CFail (TopkVal V T) :=
  match s.buckets with
  | [] => .error .pruneNoBuckets
  | b :: rest =>
    match b.elements with
    | [] => .error .pruneEmptyBucket
    | _e :: es =>
      let buckets' := if es.isEmpty then rest else { b with elements := es } :: rest
      .ok { s with pruned := true, buckets := buckets', numElements := s.numElements - 1 }

/-- The while (numElements > size) prune loop.  Each successful pruneOnce
lowers numElements by one, so fuel = numElements makes the fuelled loop agree
with the C++ loop on every input. -/
def pruneLoop : Nat → TopkVal V T → Except CFail (TopkVal V T)
  | 0, s => .ok s
  | fuel + 1, s =>
    if s.size < s.numElements then (pruneOnce s).bind (pruneLoop fuel) else .ok s

/-- TopkVal::Merge after the type negotiation: copy every source element in,
check assert(size > 0), then prune when doPrune is set. -/
def mergeBody (s src : TopkVal V T) (doPrune : Bool) : Except CFail (TopkVal V T) :=
  (mergeAll s src.buckets).bind (fun s1 =>
    if 0 < s1.size then
      if doPrune then pruneLoop s1.numElements s1 else .ok s1
    else .error .sizeNotPositive)

/-- TopkVal::Merge(const TopkVal*, bool doPrune): an untyped source is a
no-op (with assert(value->numElements == 0)); an untyped receiver is typified
(with assert(numElements == 0)); differing types are a reported error with no
state change; otherwise run the merge body. -/
def merge (s src : TopkVal V T) (doPrune : Bool) : Except CFail (TopkVal V T) :=
  match src.type with
  | none => if src.numElements = 0 then .ok s else .error .mergeSourceNotEmpty
  | some t =>
    match s.type with
    | some t' => if t' = t then mergeBody s src doPrune else .ok s
    | none =>
      if s.numElements = 0 then mergeBody { s with type := some t } src doPrune
      else .error .mergeReceiverNotEmpty

/-- One entry of the broker list payload: unsigned counts, booleans, a
serialized type descriptor or nil, and serialized values.  A serialized type
round-trips to itself and a serialized value converts back (via ToVal with
the sketch's type) to the original value, per the broker contract. -/
inductive BTok (V T : Type) where
  | count : Nat → BTok V T
  | bool : Bool → BTok V T
  | typ : T → BTok V T
  | nil : BTok V T
  | val : V → BTok V T
deriving DecidableEq, Repr

/-- The element part of a bucket record: epsilon then the value, per element. -/
def serElems (es : List (Element V)) : List (BTok V T) :=
  es.flatMap (fun e => [.count e.epsilon, .val e.value])

/-- The bucket records of the payload: per bucket, the element count, the
bucket count, then the elements. -/
def serBuckets (bs : List (Bucket V)) : List (BTok V T) :=
  bs.flatMap (fun b => .count b.elements.length :: .count b.count :: serElems b.elements)

/-- TopkVal::DoSerialize(): size, numElements, pruned, the type (or nil),
then the bucket records, with assert(i == numElements) on the emitted element
total.  Type and value serialization are abstract and total here (their
failure paths return nullopt in the source but concern the broker layer). -/
def doSerialize (s : TopkVal V T) : Except CFail (List (BTok V T)) :=
  if ((s.buckets.map (fun b => b.elements.length)).sum = s.numElements) then
    .ok ([.count s.size, .count s.numElements, .bool s.pruned,
          (match s.type with | some t => .typ t | none => .nil)] ++ serBuckets s.buckets)
  else .error .serializeCountMismatch

/-- Failure outcomes of DoUnserialize: reject is the return false path;
dupElement is the assert(elementDict->Lookup(key) == nullptr) that a payload
with a repeated element value trips. -/
inductive PFail where
  | reject
  | dupElement
deriving DecidableEq, Repr

/-- v[index].ToVal(type.get()) on an element value entry: converts exactly
the val tokens, and only once the sketch has a type to convert with. -/
def toValTok (ty : Option T) (tok : BTok V T) : Option V :=
  match ty, tok with
  | some _, .val x => some x
  | _, _ => none

/-- The inner element loop of DoUnserialize: read (epsilon, value) pairs,
failing on a non-count epsilon, early end of data, a value that does not
convert, or (the assert) a value already in the element dictionary, which is
threaded through as the list seen. -/
def parseElems (ty : Option T) : Nat → List (BTok V T) → List V →
    Except PFail (List (Element V) × List (BTok V T) × List V)
  | 0, toks, seen => .ok ([], toks, seen)
  | n + 1, toks, seen =>
    match toks with
    | .count eps :: rest =>
      match rest with
      | [] => .error .reject
      | tok :: rest2 =>
        match toValTok ty tok with
        | none => .error .reject
        | some x =>
          if x ∈ seen then .error .dupElement
          else (parseElems ty n rest2 (x :: seen)).map
            (fun r => (⟨x, eps⟩ :: r.1, r.2.1, r.2.2))
    | _ => .error .reject

/-- The outer while (i < numElements) loop of DoUnserialize: read bucket
records (element count, bucket count, elements) until at least numElements
elements are in.  The C++ loop is bounded by the data (each iteration
consumes at least two entries); the fuel plays that role and never runs out
when it starts at the payload length plus one. -/
def parseChain (ty : Option T) : Nat → List (BTok V T) → List V → Nat → Nat →
    Except PFail (List (Bucket V) × List (BTok V T))
  | fuel, toks, seen, i, n =>
    if i < n then
      match fuel with
      | 0 => .error .reject
      | fuel' + 1 =>
        match toks with
        | .count ec :: .count c :: rest =>
          (parseElems ty ec rest seen).bind (fun r =>
            (parseChain ty fuel' r.2.1 r.2.2 (i + ec) n).map
              (fun q => (⟨c, r.1⟩ :: q.1, q.2)))
        | _ => .error .reject
    else .ok ([], toks)

/-- The result of DoUnserialize on a fresh default-constructed sketch:
ok (the rebuilt sketch), reject (return false), or the duplicate-element
assert. -/
inductive DRes (V T : Type) where
  | ok : TopkVal V T → DRes V T
  | reject : DRes V T
  | dupElement : DRes V T
deriving DecidableEq, Repr

/-- TopkVal::DoUnserialize(BrokerDataView): check the four header positions
(count, count, bool, type-or-nil), read the bucket records, and reject
trailing data.  The receiver is the fresh sketch broker instantiates, so
Typify's assert cannot fire here. -/
def doUnserialize (toks : List (BTok V T)) : DRes V T :=
  match toks with
  | .count sz :: .count nE :: .bool pr :: tok3 :: rest =>
    match (match tok3 with
           | .nil => some (none : Option T)
           | .typ t => some (some t)
           | _ => none) with
    | none => .reject
    | some ty =>
      match parseChain ty (toks.length + 1) rest [] 0 nE with
      | .error .reject => .reject
      | .error .dupElement => .dupElement
      | .ok (bs, leftover) =>
        if leftover.isEmpty then .ok ⟨sz, nE, pr, ty, bs⟩ else .reject
  | _ => .reject

/-- The number of elements held by a bucket list. -/
def totalElems (bs : List (Bucket V)) : Nat :=
  (bs.map (fun b => b.elements.length)).sum

/-- The chain-ordering invariant: adjacent buckets have strictly increasing
counts. -/
def ChainSorted (bs : List (Bucket V)) : Prop :=
  List.Chain' (fun a b => a.count < b.count) bs

/-- A boolean evaluator for the chain-ordering invariant, so that concrete
instances can be checked by evaluation. -/
def chainSortedB : List (Bucket V) → Bool
  | [] => true
  | [_] => true
  | a :: b :: rest => (decide (a.count < b.count)) && chainSortedB (b :: rest)

theorem chainSortedB_iff (bs : List (Bucket V)) :
    chainSortedB bs = true ↔ ChainSorted bs := by
  induction bs with
  | nil => simp [chainSortedB, ChainSorted]
  | cons a l ih =>
    cases l with
    | nil => simp [chainSortedB, ChainSorted]
    | cons b rest =>
      unfold ChainSorted at *
      rw [List.chain'_cons, ← ih]
      simp [chainSortedB]

instance (bs : List (Bucket V)) : Decidable (ChainSorted bs) :=
  decidable_of_iff _ (chainSortedB_iff bs)

/-- Every bucket in the chain has a positive count. -/
def PositiveCounts (bs : List (Bucket V)) : Prop :=
  ∀ b ∈ bs, 0 < b.count

instance (bs : List (Bucket V)) : Decidable (PositiveCounts bs) :=
  inferInstanceAs (Decidable (∀ b ∈ bs, 0 < b.count))

/-! ## Shared lemmas about the chain search and the update engine -/

theorem chainValues_nil : chainValues ([] : List (Bucket V)) = [] := rfl

theorem chainValues_cons (b : Bucket V) (rest : List (Bucket V)) :
    chainValues (b :: rest) = b.elements.map (fun e => e.value) ++ chainValues rest := by
  simp [chainValues]

theorem chainValues_append (l1 l2 : List (Bucket V)) :
    chainValues (l1 ++ l2) = chainValues l1 ++ chainValues l2 := by
  simp [chainValues]

theorem not_mem_values_of_find?_none (b : Bucket V) (v : V)
    (hf : b.elements.find? (fun e => e.value = v) = none) :
    v ∉ b.elements.map (fun e => e.value) := by
  intro hmem
  rcases List.mem_map.1 hmem with ⟨e, he, hev⟩
  exact absurd (by simpa using (List.find?_eq_none.1 hf e he)) (by simp [hev])

theorem splitAtElem_eq_none_iff (bs : List (Bucket V)) (v : V) :
    splitAtElem bs v = none ↔ v ∉ chainValues bs := by
  induction bs with
  | nil => simp [splitAtElem, chainValues_nil]
  | cons b rest ih =>
    rw [chainValues_cons]
    cases hf : b.elements.find? (fun e => e.value = v) with
    | some e =>
      have he : e.value = v := by simpa using List.find?_some hf
      have hm := List.mem_of_find?_eq_some hf
      constructor
      · intro h; simp [splitAtElem, hf] at h
      · intro hnot
        exact absurd (List.mem_append_left _ (List.mem_map.2 ⟨e, hm, he⟩)) hnot
    | none =>
      have hnotb := not_mem_values_of_find?_none b v hf
      cases hx : splitAtElem rest v with
      | some x =>
        have hv : v ∈ chainValues rest := by
          by_contra hc
          rw [← ih] at hc
          rw [hc] at hx
          cases hx
        constructor
        · intro h; simp [splitAtElem, hf, hx] at h
        · intro hnot
          exact absurd (List.mem_append_right _ hv) hnot
      | none =>
        have hv : v ∉ chainValues rest := ih.1 hx
        constructor
        · intro _ hmem
          rcases List.mem_append.1 hmem with h1 | h2
          · exact hnotb h1
          · exact hv h2
        · intro _
          simp [splitAtElem, hf, hx]

theorem splitAtElem_eq_some (bs : List (Bucket V)) (v : V)
    (pre post : List (Bucket V)) (cur : Bucket V) (e : Element V)
    (h : splitAtElem bs v = some (pre, cur, post, e)) :
    bs = pre ++ cur :: post ∧ cur.elements.find? (fun x => x.value = v) = some e ∧
      v ∉ chainValues pre := by
  induction bs generalizing pre with
  | nil => simp [splitAtElem] at h
  | cons b rest ih =>
    cases hf : b.elements.find? (fun x => x.value = v) with
    | some e0 =>
      simp only [splitAtElem, hf, Option.some.injEq, Prod.mk.injEq] at h
      obtain ⟨h1, h2, h3, h4⟩ := h
      subst h1; subst h2; subst h3; subst h4
      exact ⟨rfl, hf, by simp [chainValues_nil]⟩
    | none =>
      cases hx : splitAtElem rest v with
      | none => simp [splitAtElem, hf, hx] at h
      | some x =>
        obtain ⟨p1, c1, q1, e1⟩ := x
        simp only [splitAtElem, hf, hx, Option.map_some', Option.some.injEq,
          Prod.mk.injEq] at h
        obtain ⟨h1, h2, h3, h4⟩ := h
        subst h2; subst h3; subst h4
        obtain ⟨hb, hfind, hnot⟩ := ih p1 hx
        have hnotb := not_mem_values_of_find?_none b v hf
        refine ⟨by rw [← h1, hb]; rfl, hfind, ?_⟩
        rw [← h1, chainValues_cons]
        intro hmem
        rcases List.mem_append.1 hmem with hm1 | hm2
        · exact hnotb hm1
        · exact hnot hm2

theorem find?_value_eq (es : List (Element V)) (v : V) (e : Element V)
    (h : es.find? (fun x => x.value = v) = some e) : e ∈ es ∧ e.value = v := by
  refine ⟨List.mem_of_find?_eq_some h, ?_⟩
  have := List.find?_some h
  simpa using this

theorem incrementCounter_eq_ok (s : TopkVal V T) (v : V) (d : Nat)
    (pre post : List (Bucket V)) (cur : Bucket V) (e : Element V)
    (h : splitAtElem s.buckets v = some (pre, cur, post, e)) :
    incrementCounter s v d = .ok { s with buckets :=
      (if (cur.elements.eraseP (fun x => x.value = v)).isEmpty then
        pre ++ bucketInsert post (cur.count + d) e
      else
        pre ++ ({ cur with elements := cur.elements.eraseP (fun x => x.value = v) }
                  :: bucketInsert post (cur.count + d) e)) } := by
  simp only [incrementCounter, h]

theorem incrementCounter_fields (s s' : TopkVal V T) (v : V) (d : Nat)
    (h : incrementCounter s v d = .ok s') :
    s'.size = s.size ∧ s'.numElements = s.numElements ∧ s'.pruned = s.pruned ∧
      s'.type = s.type := by
  cases hsp : splitAtElem s.buckets v with
  | none => simp [incrementCounter, hsp] at h
  | some x =>
    obtain ⟨pre, cur, post, e⟩ := x
    rw [incrementCounter_eq_ok s v d pre post cur e hsp] at h
    cases h
    simp

theorem foldlM_except_preserve {α β : Type} (P : β → Prop) (f : β → α → Except CFail β)
    (l : List α) (hf : ∀ b a b', a ∈ l → f b a = .ok b' → P b → P b') :
    ∀ b b', l.foldlM f b = .ok b' → P b → P b' := by
  induction l with
  | nil =>
    intro b b' h hb
    have h' : Except.ok (ε := CFail) b = Except.ok b' := h
    cases h'
    exact hb
  | cons a l ih =>
    intro b b' h hb
    simp only [List.foldlM_cons] at h
    cases hfa : f b a with
    | error err =>
      rw [hfa] at h
      exact Except.noConfusion h
    | ok b1 =>
      rw [hfa] at h
      have h1 : l.foldlM f b1 = .ok b' := h
      exact ih (fun b a' b'' ha => hf b a' b'' (List.mem_cons_of_mem _ ha)) b1 b' h1
        (hf b a b1 (List.mem_cons_self a l) hfa hb)

theorem foldlM_except_total {α β : Type} (P : β → Prop) (f : β → α → Except CFail β)
    (l : List α) (hf : ∀ b a, a ∈ l → P b → ∃ b', f b a = .ok b' ∧ P b') :
    ∀ b, P b → ∃ b', l.foldlM f b = .ok b' ∧ P b' := by
  induction l with
  | nil => intro b hb; exact ⟨b, rfl, hb⟩
  | cons a l ih =>
    intro b hb
    obtain ⟨b1, hb1, hP1⟩ := hf b a (List.mem_cons_self a l) hb
    obtain ⟨b', hb', hP'⟩ := ih (fun b a' ha => hf b a' (List.mem_cons_of_mem _ ha)) b1 hP1
    refine ⟨b', ?_, hP'⟩
    simp only [List.foldlM_cons, hb1]
    exact hb'

theorem lookupElem_eq_none_iff (bs : List (Bucket V)) (v : V) :
    lookupElem bs v = none ↔ v ∉ chainValues bs := by
  rw [← splitAtElem_eq_none_iff]
  cases h : splitAtElem bs v <;> simp [lookupElem, h]

theorem addEpsilon_counts (bs : List (Bucket V)) (v : V) (eps : Nat) :
    (addEpsilon bs v eps).map (fun b => b.count) = bs.map (fun b => b.count) := by
  simp [addEpsilon, List.map_map]

theorem positiveCounts_iff_counts (bs : List (Bucket V)) :
    PositiveCounts bs ↔ ∀ c ∈ bs.map (fun b => b.count), 0 < c := by
  simp [PositiveCounts]

theorem positiveCounts_addEpsilon (bs : List (Bucket V)) (v : V) (eps : Nat) :
    PositiveCounts (addEpsilon bs v eps) ↔ PositiveCounts bs := by
  rw [positiveCounts_iff_counts, positiveCounts_iff_counts, addEpsilon_counts]

theorem chainValues_addEpsilon (bs : List (Bucket V)) (v : V) (eps : Nat) :
    chainValues (addEpsilon bs v eps) = chainValues bs := by
  induction bs with
  | nil => rfl
  | cons b rest ih =>
    simp only [addEpsilon, List.map_cons] at *
    rw [chainValues_cons, chainValues_cons, ih]
    congr 1
    rw [List.map_map]
    apply List.map_congr_left
    intro e _
    by_cases hev : e.value = v <;> simp [hev]

theorem addEpsilon_not_mem (bs : List (Bucket V)) (v : V) (eps : Nat)
    (h : v ∉ chainValues bs) : addEpsilon bs v eps = bs := by
  induction bs with
  | nil => rfl
  | cons b rest ih =>
    rw [chainValues_cons] at h
    simp only [addEpsilon, List.map_cons]
    have hb : v ∉ b.elements.map (fun e => e.value) := fun hm => h (List.mem_append_left _ hm)
    have hr : v ∉ chainValues rest := fun hm => h (List.mem_append_right _ hm)
    have : (b.elements.map (fun e =>
        if e.value = v then { e with epsilon := e.epsilon + eps } else e)) = b.elements := by
      apply List.map_congr_left ?_ |>.trans (List.map_id _)
      intro e he
      have : e.value ≠ v := fun hev => hb (List.mem_map.2 ⟨e, he, hev⟩)
      simp [this]
    rw [this]
    have ih' := ih hr
    simp only [addEpsilon] at ih'
    rw [ih']

theorem mem_bucketInsert (post : List (Bucket V)) (t : Nat) (e : Element V)
    (b : Bucket V) (hb : b ∈ bucketInsert post t e) :
    b.count = t ∨ ∃ b0 ∈ post, b.count = b0.count := by
  induction post with
  | nil =>
    simp [bucketInsert] at hb
    subst hb
    exact Or.inl rfl
  | cons b1 rest ih =>
    simp only [bucketInsert] at hb
    by_cases h1 : b1.count < t
    · simp only [if_pos h1] at hb
      rcases List.mem_cons.1 hb with h | h
      · exact Or.inr ⟨b1, List.mem_cons_self b1 rest, by rw [h]⟩
      · rcases ih h with h' | ⟨b0, hb0, hc⟩
        · exact Or.inl h'
        · exact Or.inr ⟨b0, List.mem_cons_of_mem _ hb0, hc⟩
    · simp only [if_neg h1] at hb
      by_cases h2 : b1.count = t
      · simp only [if_pos h2] at hb
        rcases List.mem_cons.1 hb with h | h
        · exact Or.inr ⟨b1, List.mem_cons_self b1 rest, by rw [h]⟩
        · exact Or.inr ⟨b, List.mem_cons_of_mem _ h, rfl⟩
      · simp only [if_neg h2] at hb
        rcases List.mem_cons.1 hb with h | h
        · subst h; exact Or.inl rfl
        · rcases List.mem_cons.1 h with h' | h'
          · exact Or.inr ⟨b1, List.mem_cons_self b1 rest, by rw [h']⟩
          · exact Or.inr ⟨b, List.mem_cons_of_mem _ h', rfl⟩

theorem chainValues_bucketInsert (post : List (Bucket V)) (t : Nat) (e : Element V)
    (x : V) : x ∈ chainValues (bucketInsert post t e) ↔ x = e.value ∨ x ∈ chainValues post := by
  induction post with
  | nil => simp [bucketInsert, chainValues_cons, chainValues_nil]
  | cons b1 rest ih =>
    simp only [bucketInsert]
    by_cases h1 : b1.count < t
    · simp only [if_pos h1, chainValues_cons, List.mem_append, ih]
      tauto
    · by_cases h2 : b1.count = t
      · simp only [if_neg h1, if_pos h2, chainValues_cons, List.map_append, List.mem_append,
          List.map_cons, List.map_nil, List.mem_singleton]
        tauto
      · simp only [if_neg h1, if_neg h2, chainValues_cons, List.map_cons, List.map_nil,
          List.mem_append, List.mem_singleton]

theorem lookupElem_some_split (bs : List (Bucket V)) (v : V) (e : Element V)
    (h : lookupElem bs v = some e) :
    ∃ pre cur post, splitAtElem bs v = some (pre, cur, post, e) := by
  cases hs : splitAtElem bs v with
  | none => simp [lookupElem, hs] at h
  | some x =>
    obtain ⟨pre, cur, post, e1⟩ := x
    simp only [lookupElem, hs, Option.map_some', Option.some.injEq] at h
    exact ⟨pre, cur, post, by rw [h]⟩

theorem mem_of_splitAtElem (bs : List (Bucket V)) (v : V)
    (pre post : List (Bucket V)) (cur : Bucket V) (e : Element V)
    (h : splitAtElem bs v = some (pre, cur, post, e)) : v ∈ chainValues bs := by
  by_contra hc
  rw [← splitAtElem_eq_none_iff] at hc
  rw [hc] at h
  cases h

theorem except_bind_ok {E A B : Type} (x : Except E A) (f : A → Except E B) (b : B)
    (h : x.bind f = .ok b) : ∃ a, x = .ok a ∧ f a = .ok b := by
  cases x with
  | error e => exact Except.noConfusion h
  | ok a => exact ⟨a, rfl, h⟩

theorem frontCheck_ok (bs : List (Bucket V)) (hP : PositiveCounts bs) :
    frontCheck bs = .ok () := by
  cases bs with
  | nil => rfl
  | cons b rest => exact if_pos (hP b (List.mem_cons_self b rest))

theorem mergeElem_fields (s s' : TopkVal V T) (ev : V) (eps cnt : Nat)
    (h : mergeElem s ev eps cnt = .ok s') :
    s'.size = s.size ∧ s'.pruned = s.pruned ∧ s'.type = s.type ∧
      (s'.numElements = s.numElements ∨ s'.numElements = s.numElements + 1) := by
  unfold mergeElem at h
  cases hlk : lookupElem s.buckets ev with
  | some e0 =>
    rw [hlk] at h
    have hf := incrementCounter_fields _ _ _ _ h
    exact ⟨hf.1, hf.2.2.1, hf.2.2.2, Or.inl hf.2.1⟩
  | none =>
    rw [hlk] at h
    obtain ⟨a, _, h2⟩ := except_bind_ok _ _ _ h
    have hf := incrementCounter_fields _ _ _ _ h2
    exact ⟨hf.1, hf.2.2.1, hf.2.2.2, Or.inr hf.2.1⟩

theorem mergeElem_ok (s : TopkVal V T) (ev : V) (eps cnt : Nat) (hcnt : 0 < cnt)
    (hP : PositiveCounts s.buckets) :
    ∃ s', mergeElem s ev eps cnt = .ok s' ∧ PositiveCounts s'.buckets := by
  unfold mergeElem
  cases hlk : lookupElem s.buckets ev with
  | some e0 =>
    obtain ⟨pre, cur, post, hsp⟩ := lookupElem_some_split _ _ _ hlk
    have hmem : ev ∈ chainValues (addEpsilon s.buckets ev eps) := by
      rw [chainValues_addEpsilon]
      exact mem_of_splitAtElem _ _ _ _ _ _ hsp
    have hP2 : PositiveCounts (addEpsilon s.buckets ev eps) :=
      (positiveCounts_addEpsilon _ _ _).2 hP
    cases hs2 : splitAtElem (addEpsilon s.buckets ev eps) ev with
    | none => exact absurd ((splitAtElem_eq_none_iff _ _).1 hs2) (by simp [hmem])
    | some x2 =>
      obtain ⟨pre2, cur2, post2, e2⟩ := x2
      obtain ⟨hchain2, _, _⟩ := splitAtElem_eq_some _ _ _ _ _ _ hs2
      have hok := incrementCounter_eq_ok
        { s with buckets := addEpsilon s.buckets ev eps } ev cnt pre2 post2 cur2 e2 hs2
      refine ⟨_, hok, ?_⟩
      have hpre2 : ∀ b ∈ pre2, 0 < b.count := fun b hb =>
        hP2 b (by rw [hchain2]; exact List.mem_append_left _ hb)
      have hcur2 : 0 < cur2.count :=
        hP2 cur2 (by rw [hchain2]; exact List.mem_append_right _ (List.mem_cons_self _ _))
      have hpost2 : ∀ b ∈ post2, 0 < b.count := fun b hb =>
        hP2 b (by rw [hchain2]; exact List.mem_append_right _ (List.mem_cons_of_mem _ hb))
      have hins : ∀ b ∈ bucketInsert post2 (cur2.count + cnt) e2, 0 < b.count := by
        intro b hb
        rcases mem_bucketInsert _ _ _ _ hb with h | ⟨b0, hb0, hc⟩
        · rw [h]; exact Nat.lt_of_lt_of_le hcur2 (Nat.le_add_right _ _)
        · rw [hc]; exact hpost2 b0 hb0
      intro b hb
      simp only at hb
      split at hb
      · rcases List.mem_append.1 hb with h | h
        · exact hpre2 b h
        · exact hins b h
      · rcases List.mem_append.1 hb with h | h
        · exact hpre2 b h
        · rcases List.mem_cons.1 h with h' | h'
          · rw [h']; exact hcur2
          · exact hins b h'
  | none =>
    have hnm : ev ∉ chainValues s.buckets := (lookupElem_eq_none_iff _ _).1 hlk
    have hcons : addEpsilon (⟨0, [⟨ev, 0⟩]⟩ :: s.buckets) ev eps =
        (⟨0, ([⟨ev, 0⟩] : List (Element V)).map (fun e =>
          if e.value = ev then { e with epsilon := e.epsilon + eps } else e)⟩ : Bucket V)
          :: addEpsilon s.buckets ev eps := rfl
    have haddeq : addEpsilon (⟨0, [⟨ev, 0⟩]⟩ :: s.buckets) ev eps =
        ⟨0, [⟨ev, 0 + eps⟩]⟩ :: s.buckets := by
      rw [hcons, addEpsilon_not_mem s.buckets ev eps hnm]
      congr 1
      simp
    have hsp : splitAtElem (V := V) (⟨0, [⟨ev, 0 + eps⟩]⟩ :: s.buckets) ev =
        some ([], ⟨0, [⟨ev, 0 + eps⟩]⟩, s.buckets, ⟨ev, 0 + eps⟩) := by
      simp [splitAtElem]
    have hok := incrementCounter_eq_ok
      { s with buckets := (⟨0, [⟨ev, 0 + eps⟩]⟩ : Bucket V) :: s.buckets,
               numElements := s.numElements + 1 } ev cnt
      [] s.buckets ⟨0, [⟨ev, 0 + eps⟩]⟩ ⟨ev, 0 + eps⟩ hsp
    have herase : ((([⟨ev, 0 + eps⟩] : List (Element V)).eraseP
        (fun x => x.value = ev)).isEmpty : Bool) = true := by
      simp [List.eraseP_cons]
    have hres : ∀ b ∈ bucketInsert s.buckets (0 + cnt) (⟨ev, 0 + eps⟩ : Element V),
        0 < b.count := by
      intro b hb
      rcases mem_bucketInsert _ _ _ _ hb with h | ⟨b0, hb0, hc⟩
      · rw [h]; omega
      · rw [hc]; exact hP b0 hb0
    have hok2 : incrementCounter
        { s with buckets := (⟨0, [⟨ev, 0 + eps⟩]⟩ : Bucket V) :: s.buckets,
                 numElements := s.numElements + 1 } ev cnt =
        .ok { s with buckets := bucketInsert s.buckets (0 + cnt) (⟨ev, 0 + eps⟩ : Element V),
                     numElements := s.numElements + 1 } := by
      rw [hok]
      simp [List.eraseP_cons]
    have hbind : (frontCheck s.buckets).bind (fun _ =>
        incrementCounter
          { s with buckets := addEpsilon (⟨0, [⟨ev, 0⟩]⟩ :: s.buckets) ev eps,
                   numElements := s.numElements + 1 } ev cnt) =
        .ok { s with buckets := bucketInsert s.buckets (0 + cnt) (⟨ev, 0 + eps⟩ : Element V),
                     numElements := s.numElements + 1 } := by
      rw [frontCheck_ok s.buckets hP]
      show incrementCounter
          { s with buckets := addEpsilon (⟨0, [⟨ev, 0⟩]⟩ :: s.buckets) ev eps,
                   numElements := s.numElements + 1 } ev cnt = _
      rw [haddeq]
      exact hok2
    exact ⟨_, hbind, hres⟩

theorem mergeAll_ok (s : TopkVal V T) (srcBuckets : List (Bucket V))
    (hsrc : PositiveCounts srcBuckets) (hP : PositiveCounts s.buckets) :
    ∃ s', mergeAll s srcBuckets = .ok s' ∧ PositiveCounts s'.buckets ∧
      s'.size = s.size := by
  have hstep : ∀ (acc : TopkVal V T) (b : Bucket V), b ∈ srcBuckets →
      (PositiveCounts acc.buckets ∧ acc.size = s.size) →
      ∃ acc' : TopkVal V T, (b.elements.foldlM
          (fun acc2 e => mergeElem acc2 e.value e.epsilon b.count) acc) = .ok acc' ∧
        (PositiveCounts acc'.buckets ∧ acc'.size = s.size) := by
    intro acc b hb hacc
    refine foldlM_except_total _ _ b.elements ?_ acc hacc
    intro acc2 e _ hacc2
    obtain ⟨st', hok, hPst⟩ := mergeElem_ok acc2 e.value e.epsilon b.count (hsrc b hb) hacc2.1
    exact ⟨st', hok, hPst, by rw [(mergeElem_fields _ _ _ _ _ hok).1, hacc2.2]⟩
  obtain ⟨s', h1, h2, h3⟩ := foldlM_except_total
    (fun st => PositiveCounts st.buckets ∧ st.size = s.size) _ srcBuckets hstep s ⟨hP, rfl⟩
  exact ⟨s', h1, h2, h3⟩

theorem mergeAll_pruned (s s' : TopkVal V T) (srcBuckets : List (Bucket V))
    (h : mergeAll s srcBuckets = .ok s') : s'.pruned = s.pruned := by
  refine foldlM_except_preserve (fun st => st.pruned = s.pruned) _ srcBuckets ?_ s s' h rfl
  intro acc b acc' _ hstep hacc
  refine foldlM_except_preserve (fun st => st.pruned = s.pruned) _ b.elements ?_ acc acc'
    hstep hacc
  intro a e a' _ hm hPa
  rw [(mergeElem_fields _ _ _ _ _ hm).2.1]
  exact hPa

theorem pruneOnce_pruned (s s' : TopkVal V T) (h : pruneOnce s = .ok s') :
    s'.pruned = true := by
  obtain ⟨sz, n, p, ty, bs⟩ := s
  cases bs with
  | nil => cases h
  | cons b rest =>
    obtain ⟨c, els⟩ := b
    cases els with
    | nil => cases h
    | cons e es => cases h; rfl

theorem pruneLoop_pruned (fuel : Nat) (s s' : TopkVal V T) (h : pruneLoop fuel s = .ok s')
    (hp : s.pruned = true) : s'.pruned = true := by
  induction fuel generalizing s with
  | zero =>
    have h' : Except.ok (ε := CFail) s = Except.ok s' := h
    cases h'
    exact hp
  | succ fuel ih =>
    unfold pruneLoop at h
    by_cases hc : s.size < s.numElements
    · rw [if_pos hc] at h
      obtain ⟨s1, h1, h2⟩ := except_bind_ok _ _ _ h
      exact ih s1 h2 (pruneOnce_pruned _ _ h1)
    · rw [if_neg hc] at h
      cases h
      exact hp

theorem mergeBody_pruned (s src : TopkVal V T) (dp : Bool) (s' : TopkVal V T)
    (h : mergeBody s src dp = .ok s') (hp : s.pruned = true) : s'.pruned = true := by
  unfold mergeBody at h
  obtain ⟨s1, h1, h2⟩ := except_bind_ok _ _ _ h
  have hs1 : s1.pruned = true := by rw [mergeAll_pruned _ _ _ h1]; exact hp
  by_cases hsz : 0 < s1.size
  · rw [if_pos hsz] at h2
    cases dp with
    | false =>
      have h2' : Except.ok (ε := CFail) s1 = Except.ok s' := h2
      cases h2'
      exact hs1
    | true => exact pruneLoop_pruned _ _ _ h2 hs1
  · rw [if_neg hsz] at h2
    cases h2

theorem merge_pruned (s src : TopkVal V T) (dp : Bool) (s' : TopkVal V T)
    (h : merge s src dp = .ok s') (hp : s.pruned = true) : s'.pruned = true := by
  unfold merge at h
  split at h
  · split at h
    · cases h; exact hp
    · cases h
  · split at h
    · split at h
      · exact mergeBody_pruned _ _ _ _ h hp
      · cases h; exact hp
    · split at h
      · exact mergeBody_pruned _ _ _ _ h hp
      · cases h

theorem encounteredCore_pruned (s s' : TopkVal V T) (v : V)
    (h : encounteredCore s v = .ok s') : s'.pruned = s.pruned := by
  unfold encounteredCore at h
  split at h
  · exact (incrementCounter_fields _ _ _ _ h).2.2.1
  · split at h
    · split at h
      · cases h; rfl
      · split at h
        · cases h; rfl
        · split at h
          · cases h; rfl
          · cases h
    · split at h
      · cases h
      · split at h
        · cases h
        · exact (incrementCounter_fields _ _ _ _ h).2.2.1

theorem encountered_pruned (typeOf : V → T) (s s' : TopkVal V T) (v : V)
    (h : encountered typeOf s v = .ok s') : s'.pruned = s.pruned := by
  unfold encountered at h
  split at h
  · split at h
    · cases h
    · exact encounteredCore_pruned { s with type := some (typeOf v) } _ _ h
  · split at h
    · split at h
      · exact encounteredCore_pruned _ _ _ h
      · cases h; rfl
    · cases h; rfl

theorem find?_decomp {α : Type} (p : α → Bool) (es : List α) (e : α)
    (h : es.find? p = some e) :
    ∃ l1 l2, es = l1 ++ e :: l2 ∧ ∀ x ∈ l1, ¬p x = true := by
  induction es with
  | nil => cases h
  | cons a rest ih =>
    by_cases hp : p a = true
    · rw [List.find?_cons_of_pos _ hp] at h
      cases h
      exact ⟨[], rest, rfl, by simp⟩
    · rw [List.find?_cons_of_neg _ (by simpa using hp)] at h
      obtain ⟨l1, l2, heq, hl1⟩ := ih h
      refine ⟨a :: l1, l2, by rw [heq]; rfl, ?_⟩
      intro x hx
      rcases List.mem_cons.1 hx with h' | h'
      · rw [h']; simpa using hp
      · exact hl1 x h'

theorem find?_append_none {α : Type} (p : α → Bool) (l1 l2 : List α)
    (h : l1.find? p = none) : (l1 ++ l2).find? p = l2.find? p := by
  rw [List.find?_append, h]
  rfl

theorem splitAtElem_append (pre rest : List (Bucket V)) (v : V)
    (h : v ∉ chainValues pre) :
    splitAtElem (pre ++ rest) v =
      (splitAtElem rest v).map (fun x => (pre ++ x.1, x.2.1, x.2.2.1, x.2.2.2)) := by
  induction pre with
  | nil =>
    simp only [List.nil_append]
    cases hx : splitAtElem rest v with
    | none => simp
    | some x => simp
  | cons b pre' ih =>
    rw [chainValues_cons] at h
    have hb : v ∉ b.elements.map (fun e => e.value) := fun hm => h (List.mem_append_left _ hm)
    have hp : v ∉ chainValues pre' := fun hm => h (List.mem_append_right _ hm)
    have hf : b.elements.find? (fun e => e.value = v) = none := by
      rw [List.find?_eq_none]
      intro x hx
      simp only [decide_eq_true_eq]
      intro hv
      exact hb (List.mem_map.2 ⟨x, hx, hv⟩)
    show splitAtElem (b :: (pre' ++ rest)) v = _
    simp only [splitAtElem, hf, ih hp, Option.map_map]
    cases hx : splitAtElem rest v with
    | none => simp
    | some x => simp

theorem splitAtElem_bucketInsert (after : List (Bucket V)) (t : Nat) (e : Element V)
    (hnm : e.value ∉ chainValues after) :
    ∃ p2 db q2, splitAtElem (bucketInsert after t e) e.value = some (p2, db, q2, e) ∧
      db.count = t ∧ db.elements.getLast? = some e ∧
      (db.elements = [e] ∨ ∃ b0 ∈ after, db.count = b0.count ∧ db.elements = b0.elements ++ [e]) := by
  induction after with
  | nil =>
    refine ⟨[], ⟨t, [e]⟩, [], ?_, rfl, rfl, Or.inl rfl⟩
    simp [bucketInsert, splitAtElem]
  | cons b rest ih =>
    rw [chainValues_cons] at hnm
    have hb : e.value ∉ b.elements.map (fun x => x.value) :=
      fun hm => hnm (List.mem_append_left _ hm)
    have hr : e.value ∉ chainValues rest := fun hm => hnm (List.mem_append_right _ hm)
    have hf : b.elements.find? (fun x => x.value = e.value) = none := by
      rw [List.find?_eq_none]
      intro x hx
      simp only [decide_eq_true_eq]
      intro hv
      exact hb (List.mem_map.2 ⟨x, hx, hv⟩)
    simp only [bucketInsert]
    by_cases h1 : b.count < t
    · rw [if_pos h1]
      obtain ⟨p2, db, q2, hsp, hc, hlast, hcontent⟩ := ih hr
      refine ⟨b :: p2, db, q2, ?_, hc, hlast, ?_⟩
      · simp only [splitAtElem, hf, hsp]
        rfl
      · rcases hcontent with h | ⟨b0, hb0, hc0, he0⟩
        · exact Or.inl h
        · exact Or.inr ⟨b0, List.mem_cons_of_mem _ hb0, hc0, he0⟩
    · rw [if_neg h1]
      by_cases h2 : b.count = t
      · rw [if_pos h2]
        have hfind : (b.elements ++ [e]).find? (fun x => x.value = e.value) = some e := by
          rw [find?_append_none _ _ _ hf]
          simp [List.find?_cons]
        refine ⟨[], ⟨b.count, b.elements ++ [e]⟩, rest, ?_, h2, List.getLast?_concat _,
          Or.inr ⟨b, List.mem_cons_self b rest, rfl, rfl⟩⟩
        simp only [splitAtElem, hfind]
      · rw [if_neg h2]
        have hfind : (([e] : List (Element V)).find? (fun x => x.value = e.value)) = some e := by
          simp [List.find?_cons]
        refine ⟨[], ⟨t, [e]⟩, b :: rest, ?_, rfl, rfl, Or.inl rfl⟩
        simp only [splitAtElem]
        simp [List.find?_cons]

theorem incrementCounter_lookup (s : TopkVal V T) (v : V) (d : Nat)
    (pre post : List (Bucket V)) (cur : Bucket V) (e : Element V)
    (hsp : splitAtElem s.buckets v = some (pre, cur, post, e))
    (hnd : (chainValues s.buckets).Nodup) :
    ∃ s', incrementCounter s v d = .ok s' ∧
      lookupCount s'.buckets v = some (cur.count + d) ∧
      lookupElem s'.buckets v = some e ∧
      (∀ w, w ≠ v → (w ∈ chainValues s'.buckets ↔ w ∈ chainValues s.buckets)) := by
  obtain ⟨hchain, hfind, hprenm⟩ := splitAtElem_eq_some _ _ _ _ _ _ hsp
  have hev : e.value = v := (find?_value_eq _ _ _ hfind).2
  obtain ⟨l1, l2, hdecomp, hl1⟩ := find?_decomp _ _ _ hfind
  have herase : cur.elements.eraseP (fun x => x.value = v) = l1 ++ l2 := by
    rw [hdecomp, List.eraseP_append_right _ hl1, List.eraseP_cons_of_pos (by simp [hev])]
  have hcveq : chainValues s.buckets =
      (chainValues pre ++ l1.map (fun x => x.value)) ++
        v :: (l2.map (fun x => x.value) ++ chainValues post) := by
    rw [hchain, chainValues_append, chainValues_cons, hdecomp, List.map_append, List.map_cons,
      hev]
    simp [List.append_assoc]
  have hvtail : v ∉ l2.map (fun x => x.value) ++ chainValues post := by
    have hsub : (v :: (l2.map (fun x => x.value) ++ chainValues post)).Sublist
        (chainValues s.buckets) := by
      rw [hcveq]
      exact (List.suffix_append _ _).sublist
    exact (List.nodup_cons.1 (hnd.sublist hsub)).1
  have hvl2 : v ∉ l2.map (fun x => x.value) := fun hm => hvtail (List.mem_append_left _ hm)
  have hvpost : v ∉ chainValues post := fun hm => hvtail (List.mem_append_right _ hm)
  have hvl1 : v ∉ l1.map (fun x => x.value) := by
    intro hm
    rcases List.mem_map.1 hm with ⟨x, hx, hxv⟩
    exact absurd (by simpa using hl1 x hx) (by simp [hxv])
  obtain ⟨p2, db, q2, hsp2, hdbc, hlast, hcontent⟩ :=
    splitAtElem_bucketInsert post (cur.count + d) e (by rw [hev]; exact hvpost)
  rw [hev] at hsp2
  have hok := incrementCounter_eq_ok s v d pre post cur e hsp
  have hmem_s : ∀ w, w ∈ chainValues s.buckets ↔
      w ∈ chainValues pre ∨ w ∈ cur.elements.map (fun x => x.value) ∨
        w ∈ chainValues post := by
    intro w
    rw [hchain, chainValues_append, chainValues_cons]
    simp [List.mem_append]
  have hmem_cur : ∀ w, w ≠ v → (w ∈ cur.elements.map (fun x => x.value) ↔
      w ∈ l1.map (fun x => x.value) ∨ w ∈ l2.map (fun x => x.value)) := by
    intro w hw
    rw [hdecomp]
    simp only [List.map_append, List.map_cons, List.mem_append, List.mem_cons, hev]
    constructor
    · rintro (h | h | h)
      · exact Or.inl h
      · exact absurd h hw
      · exact Or.inr h
    · rintro (h | h)
      · exact Or.inl h
      · exact Or.inr (Or.inr h)
  have hmem_bins : ∀ w, w ≠ v →
      (w ∈ chainValues (bucketInsert post (cur.count + d) e) ↔ w ∈ chainValues post) := by
    intro w hw
    rw [chainValues_bucketInsert]
    simp [hev, hw]
  by_cases hre : ((cur.elements.eraseP (fun x => x.value = v)).isEmpty : Bool) = true
  · rw [if_pos hre] at hok
    have hl1l2 : l1 = [] ∧ l2 = [] := by
      rw [herase] at hre
      simp [List.isEmpty_iff] at hre
      exact hre
    have hcur_vals : cur.elements.map (fun x => x.value) = [v] := by
      rw [hdecomp, hl1l2.1, hl1l2.2]
      simp [hev]
    refine ⟨_, hok, ?_, ?_, ?_⟩
    · show lookupCount (pre ++ bucketInsert post (cur.count + d) e) v = some (cur.count + d)
      unfold lookupCount
      rw [splitAtElem_append _ _ _ hprenm, hsp2]
      simp [hdbc]
    · show lookupElem (pre ++ bucketInsert post (cur.count + d) e) v = some e
      unfold lookupElem
      rw [splitAtElem_append _ _ _ hprenm, hsp2]
      simp
    · intro w hw
      show w ∈ chainValues (pre ++ bucketInsert post (cur.count + d) e) ↔ _
      rw [chainValues_append, hmem_s w]
      simp only [List.mem_append, hmem_bins w hw, hcur_vals, List.mem_singleton]
      constructor
      · rintro (h | h)
        · exact Or.inl h
        · exact Or.inr (Or.inr h)
      · rintro (h | h | h)
        · exact Or.inl h
        · exact absurd h hw
        · exact Or.inr h
  · rw [if_neg hre] at hok
    have hremvals : (cur.elements.eraseP (fun x => x.value = v)).map (fun x => x.value) =
        l1.map (fun x => x.value) ++ l2.map (fun x => x.value) := by
      rw [herase, List.map_append]
    have hnomem : v ∉ chainValues
        [{ cur with elements := cur.elements.eraseP (fun x => x.value = v) }] := by
      rw [chainValues_cons, chainValues_nil, List.append_nil, hremvals]
      intro hm
      rcases List.mem_append.1 hm with h | h
      · exact hvl1 h
      · exact hvl2 h
    have happ : ∀ q : List (Bucket V),
        ({ cur with elements := cur.elements.eraseP (fun x => x.value = v) } :: q) =
          [{ cur with elements := cur.elements.eraseP (fun x => x.value = v) }] ++ q := by
      intro q; rfl
    refine ⟨_, hok, ?_, ?_, ?_⟩
    · show lookupCount (pre ++ ({ cur with elements := _ } :: bucketInsert post (cur.count + d) e))
        v = some (cur.count + d)
      unfold lookupCount
      rw [splitAtElem_append _ _ _ hprenm, happ, splitAtElem_append _ _ _ hnomem, hsp2]
      simp [hdbc]
    · show lookupElem (pre ++ ({ cur with elements := _ } :: bucketInsert post (cur.count + d) e))
        v = some e
      unfold lookupElem
      rw [splitAtElem_append _ _ _ hprenm, happ, splitAtElem_append _ _ _ hnomem, hsp2]
      simp
    · intro w hw
      show w ∈ chainValues (pre ++ ({ cur with elements := _ }
          :: bucketInsert post (cur.count + d) e)) ↔ _
      rw [chainValues_append, chainValues_cons, hmem_s w]
      simp only [List.mem_append, hmem_bins w hw, hmem_cur w hw, hremvals]

theorem encounteredCore_replace_eq (s : TopkVal V T) (v : V) (b0 : Bucket V) (vic : Element V)
    (relems : List (Element V)) (rest : List (Bucket V))
    (hlk : lookupElem s.buckets v = none) (hlt : ¬ s.numElements < s.size)
    (hb : s.buckets = b0 :: rest) (hel : b0.elements = vic :: relems) :
    encounteredCore s v = incrementCounter
      { s with buckets := { b0 with elements := relems ++ [⟨v, b0.count⟩] } :: rest } v 1 := by
  unfold encounteredCore
  rw [hlk]
  simp only [if_neg hlt]
  rw [hb]
  simp only [hel]

theorem find?_map_addEps (l : List (Element V)) (v : V) (eps : Nat) :
    (l.map (fun x => if x.value = v then { x with epsilon := x.epsilon + eps } else x)).find?
        (fun x => x.value = v) =
      (l.find? (fun x => x.value = v)).map
        (fun x => if x.value = v then { x with epsilon := x.epsilon + eps } else x) := by
  induction l with
  | nil => rfl
  | cons a l ih =>
    by_cases ha : a.value = v
    · simp [List.find?_cons, ha]
    · simp only [List.map_cons, if_neg ha]
      rw [List.find?_cons_of_neg _ (by simp [ha]), List.find?_cons_of_neg _ (by simp [ha])]
      exact ih

theorem splitAtElem_addEpsilon (bs : List (Bucket V)) (v : V) (eps : Nat)
    (pre post : List (Bucket V)) (cur : Bucket V) (e : Element V)
    (hsp : splitAtElem bs v = some (pre, cur, post, e)) :
    splitAtElem (addEpsilon bs v eps) v =
      some (addEpsilon pre v eps,
        { cur with elements :=
            cur.elements.map (fun x =>
              if x.value = v then { x with epsilon := x.epsilon + eps } else x) },
        addEpsilon post v eps,
        { e with epsilon := e.epsilon + eps }) := by
  induction bs generalizing pre with
  | nil => cases hsp
  | cons b rest ih =>
    cases hf : b.elements.find? (fun x => x.value = v) with
    | some e0 =>
      simp only [splitAtElem, hf, Option.some.injEq, Prod.mk.injEq] at hsp
      obtain ⟨h1, h2, h3, h4⟩ := hsp
      subst h1; subst h2; subst h3; subst h4
      show splitAtElem ({ b with elements := _ } :: addEpsilon rest v eps) v = _
      have hf2 := find?_map_addEps b.elements v eps
      rw [hf] at hf2
      have he0 : e0.value = v := (find?_value_eq _ _ _ hf).2
      simp only [splitAtElem, hf2, Option.map_some', if_pos he0]
      rfl
    | none =>
      cases hx : splitAtElem rest v with
      | none => simp [splitAtElem, hf, hx] at hsp
      | some x =>
        obtain ⟨p1, c1, q1, e1⟩ := x
        simp only [splitAtElem, hf, hx, Option.map_some', Option.some.injEq,
          Prod.mk.injEq] at hsp
        obtain ⟨h1, h2, h3, h4⟩ := hsp
        subst h2; subst h3; subst h4
        have hrec := ih p1 hx
        show splitAtElem ({ b with elements := _ } :: addEpsilon rest v eps) v = _
        have hf2 := find?_map_addEps b.elements v eps
        rw [hf] at hf2
        simp only [splitAtElem, hf2, Option.map_none', hrec, Option.map_some']
        rw [← h1]
        rfl

theorem mergeElem_absent_eq (s : TopkVal V T) (ev : V) (eps cnt : Nat)
    (hlk : lookupElem s.buckets ev = none) (hP : PositiveCounts s.buckets) :
    mergeElem s ev eps cnt = .ok { s with
      buckets := bucketInsert s.buckets (0 + cnt) (⟨ev, 0 + eps⟩ : Element V),
      numElements := s.numElements + 1 } := by
  have hnm : ev ∉ chainValues s.buckets := (lookupElem_eq_none_iff _ _).1 hlk
  have hcons : addEpsilon (⟨0, [⟨ev, 0⟩]⟩ :: s.buckets) ev eps =
      (⟨0, ([⟨ev, 0⟩] : List (Element V)).map (fun e =>
        if e.value = ev then { e with epsilon := e.epsilon + eps } else e)⟩ : Bucket V)
        :: addEpsilon s.buckets ev eps := rfl
  have haddeq : addEpsilon (⟨0, [⟨ev, 0⟩]⟩ :: s.buckets) ev eps =
      ⟨0, [⟨ev, 0 + eps⟩]⟩ :: s.buckets := by
    rw [hcons, addEpsilon_not_mem s.buckets ev eps hnm]
    congr 1
    simp
  have hsp : splitAtElem (V := V) (⟨0, [⟨ev, 0 + eps⟩]⟩ :: s.buckets) ev =
      some ([], ⟨0, [⟨ev, 0 + eps⟩]⟩, s.buckets, ⟨ev, 0 + eps⟩) := by
    simp [splitAtElem]
  have hok := incrementCounter_eq_ok
    { s with buckets := (⟨0, [⟨ev, 0 + eps⟩]⟩ : Bucket V) :: s.buckets,
             numElements := s.numElements + 1 } ev cnt
    [] s.buckets ⟨0, [⟨ev, 0 + eps⟩]⟩ ⟨ev, 0 + eps⟩ hsp
  have hok2 : incrementCounter
      { s with buckets := (⟨0, [⟨ev, 0 + eps⟩]⟩ : Bucket V) :: s.buckets,
               numElements := s.numElements + 1 } ev cnt =
      .ok { s with buckets := bucketInsert s.buckets (0 + cnt) (⟨ev, 0 + eps⟩ : Element V),
                   numElements := s.numElements + 1 } := by
    rw [hok]
    simp [List.eraseP_cons]
  unfold mergeElem
  rw [hlk]
  show (frontCheck s.buckets).bind _ = _
  rw [frontCheck_ok s.buckets hP]
  show incrementCounter
      { s with buckets := addEpsilon (⟨0, [⟨ev, 0⟩]⟩ :: s.buckets) ev eps,
               numElements := s.numElements + 1 } ev cnt = _
  rw [haddeq]
  exact hok2

theorem encounteredCore_insert_nil_eq (s : TopkVal V T) (v : V)
    (hlk : lookupElem s.buckets v = none) (hlt : s.numElements < s.size)
    (hb : s.buckets = []) :
    encounteredCore s v =
      .ok { s with buckets := [⟨1, [⟨v, 0⟩]⟩], numElements := s.numElements + 1 } := by
  unfold encounteredCore
  rw [hlk]
  simp only [if_pos hlt]
  rw [hb]

theorem encounteredCore_insert_new_eq (s : TopkVal V T) (v : V) (b : Bucket V)
    (rest : List (Bucket V)) (hlk : lookupElem s.buckets v = none)
    (hlt : s.numElements < s.size) (hb : s.buckets = b :: rest) (h1 : 1 < b.count) :
    encounteredCore s v =
      .ok { s with buckets := ⟨1, [⟨v, 0⟩]⟩ :: b :: rest,
                   numElements := s.numElements + 1 } := by
  unfold encounteredCore
  rw [hlk]
  simp only [if_pos hlt]
  rw [hb]
  simp only [if_pos h1]

theorem encounteredCore_insert_head_eq (s : TopkVal V T) (v : V) (b : Bucket V)
    (rest : List (Bucket V)) (hlk : lookupElem s.buckets v = none)
    (hlt : s.numElements < s.size) (hb : s.buckets = b :: rest) (h1 : ¬ 1 < b.count)
    (h2 : b.count = 1) :
    encounteredCore s v =
      .ok { s with buckets := { b with elements := b.elements ++ [⟨v, 0⟩] } :: rest,
                   numElements := s.numElements + 1 } := by
  unfold encounteredCore
  rw [hlk]
  simp only [if_pos hlt]
  rw [hb]
  simp only [if_neg h1, if_pos h2]

theorem encounteredCore_headCountNotOne_eq (s : TopkVal V T) (v : V) (b : Bucket V)
    (rest : List (Bucket V)) (hlk : lookupElem s.buckets v = none)
    (hlt : s.numElements < s.size) (hb : s.buckets = b :: rest) (h1 : ¬ 1 < b.count)
    (h2 : ¬ b.count = 1) :
    encounteredCore s v = .error .headCountNotOne := by
  unfold encounteredCore
  rw [hlk]
  simp only [if_pos hlt]
  rw [hb]
  simp only [if_neg h1, if_neg h2]

theorem encounteredCore_ubEmpty_eq (s : TopkVal V T) (v : V)
    (hlk : lookupElem s.buckets v = none) (hlt : ¬ s.numElements < s.size)
    (hb : s.buckets = []) :
    encounteredCore s v = .error .ubEmptyBuckets := by
  unfold encounteredCore
  rw [hlk]
  simp only [if_neg hlt]
  rw [hb]

theorem encounteredCore_emptyHead_eq (s : TopkVal V T) (v : V) (b : Bucket V)
    (rest : List (Bucket V)) (hlk : lookupElem s.buckets v = none)
    (hlt : ¬ s.numElements < s.size) (hb : s.buckets = b :: rest)
    (hel : b.elements = []) :
    encounteredCore s v = .error .emptyHeadBucket := by
  unfold encounteredCore
  rw [hlk]
  simp only [if_neg hlt]
  rw [hb]
  simp only [hel]

theorem encounteredCore_found_eq (s : TopkVal V T) (v : V) (e0 : Element V)
    (hlk : lookupElem s.buckets v = some e0) :
    encounteredCore s v = incrementCounter s v 1 := by
  unfold encounteredCore
  rw [hlk]

theorem chainSorted_addEpsilon (bs : List (Bucket V)) (v : V) (eps : Nat) :
    ChainSorted (addEpsilon bs v eps) ↔ ChainSorted bs := by
  unfold ChainSorted addEpsilon
  rw [List.chain'_map]

theorem bucketInsert_sorted (post : List (Bucket V)) (t : Nat) (e : Element V) (lb : Nat)
    (hs : ChainSorted post) (hhd : ∀ b ∈ post.head?, lb < b.count) (hlb : lb < t) :
    ChainSorted (bucketInsert post t e) ∧
      (∀ b ∈ (bucketInsert post t e).head?, lb < b.count) := by
  induction post generalizing lb with
  | nil =>
    constructor
    · exact List.chain'_singleton _
    · intro b hb
      simp only [bucketInsert, List.head?_cons, Option.mem_def, Option.some.injEq] at hb
      rw [← hb]
      exact hlb
  | cons b1 rest ih =>
    rw [ChainSorted, List.chain'_cons'] at hs
    obtain ⟨hb1hd, hrest⟩ := hs
    simp only [bucketInsert]
    by_cases h1 : b1.count < t
    · rw [if_pos h1]
      obtain ⟨hso, hhd'⟩ := ih b1.count hrest hb1hd h1
      constructor
      · rw [ChainSorted, List.chain'_cons']
        exact ⟨hhd', hso⟩
      · intro b hb
        simp only [List.head?_cons, Option.mem_def, Option.some.injEq] at hb
        rw [← hb]
        exact hhd b1 (by simp)
    · rw [if_neg h1]
      by_cases h2 : b1.count = t
      · rw [if_pos h2]
        constructor
        · rw [ChainSorted, List.chain'_cons']
          exact ⟨hb1hd, hrest⟩
        · intro b hb
          simp only [List.head?_cons, Option.mem_def, Option.some.injEq] at hb
          rw [← hb]
          exact hhd b1 (by simp)
      · rw [if_neg h2]
        have hgt : t < b1.count := by omega
        constructor
        · rw [ChainSorted, List.chain'_cons']
          constructor
          · intro y hy
            simp only [List.head?_cons, Option.mem_def, Option.some.injEq] at hy
            rw [← hy]
            exact hgt
          · rw [List.chain'_cons']
            exact ⟨hb1hd, hrest⟩
        · intro b hb
          simp only [List.head?_cons, Option.mem_def, Option.some.injEq] at hb
          rw [← hb]
          exact hlb

theorem incrementCounter_sorted (s s' : TopkVal V T) (v : V) (d : Nat) (hd : 0 < d)
    (hs : ChainSorted s.buckets) (h : incrementCounter s v d = .ok s') :
    ChainSorted s'.buckets := by
  cases hsp : splitAtElem s.buckets v with
  | none => simp [incrementCounter, hsp] at h
  | some x =>
    obtain ⟨pre, cur, post, e⟩ := x
    obtain ⟨hchain, _, _⟩ := splitAtElem_eq_some _ _ _ _ _ _ hsp
    rw [incrementCounter_eq_ok s v d pre post cur e hsp] at h
    cases h
    rw [hchain] at hs
    rw [ChainSorted, List.chain'_append] at hs
    obtain ⟨hpre, hcurpost, hlink⟩ := hs
    rw [List.chain'_cons'] at hcurpost
    obtain ⟨hposthd, hpost⟩ := hcurpost
    obtain ⟨hbs, hbhd⟩ := bucketInsert_sorted post (cur.count + d) e cur.count hpost hposthd
      (by omega)
    show ChainSorted _
    split
    · rw [ChainSorted, List.chain'_append]
      refine ⟨hpre, hbs, ?_⟩
      intro x hx y hy
      have h1 : x.count < cur.count := hlink x hx cur (by simp)
      have h2 : cur.count < y.count := hbhd y hy
      omega
    · rw [ChainSorted, List.chain'_append]
      refine ⟨hpre, ?_, ?_⟩
      · rw [List.chain'_cons']
        exact ⟨fun y hy => hbhd y hy, hbs⟩
      · intro x hx y hy
        simp only [List.head?_cons, Option.mem_def, Option.some.injEq] at hy
        rw [← hy]
        exact hlink x hx cur (by simp)

theorem incrementCounter_pos (s s' : TopkVal V T) (v : V) (d : Nat)
    (hP : PositiveCounts s.buckets) (h : incrementCounter s v d = .ok s') :
    PositiveCounts s'.buckets := by
  cases hsp : splitAtElem s.buckets v with
  | none => simp [incrementCounter, hsp] at h
  | some x =>
    obtain ⟨pre, cur, post, e⟩ := x
    obtain ⟨hchain, _, _⟩ := splitAtElem_eq_some _ _ _ _ _ _ hsp
    rw [incrementCounter_eq_ok s v d pre post cur e hsp] at h
    cases h
    rw [hchain] at hP
    have hpre : ∀ b ∈ pre, 0 < b.count := fun b hb => hP b (List.mem_append_left _ hb)
    have hcur : 0 < cur.count :=
      hP cur (List.mem_append_right _ (List.mem_cons_self _ _))
    have hpost : ∀ b ∈ post, 0 < b.count := fun b hb =>
      hP b (List.mem_append_right _ (List.mem_cons_of_mem _ hb))
    have hins : ∀ b ∈ bucketInsert post (cur.count + d) e, 0 < b.count := by
      intro b hb
      rcases mem_bucketInsert _ _ _ _ hb with h | ⟨b0, hb0, hc⟩
      · rw [h]; omega
      · rw [hc]; exact hpost b0 hb0
    show PositiveCounts _
    intro b hb
    split at hb
    · rcases List.mem_append.1 hb with h | h
      · exact hpre b h
      · exact hins b h
    · rcases List.mem_append.1 hb with h | h
      · exact hpre b h
      · rcases List.mem_cons.1 h with h' | h'
        · rw [h']; exact hcur
        · exact hins b h'

theorem encounteredCore_sorted (s s' : TopkVal V T) (v : V)
    (hs : ChainSorted s.buckets) (h : encounteredCore s v = .ok s') :
    ChainSorted s'.buckets := by
  cases hlk : lookupElem s.buckets v with
  | some e0 =>
    rw [encounteredCore_found_eq s v e0 hlk] at h
    exact incrementCounter_sorted _ _ _ _ (by omega) hs h
  | none =>
    by_cases hlt : s.numElements < s.size
    · cases hbk : s.buckets with
      | nil =>
        rw [encounteredCore_insert_nil_eq s v hlk hlt hbk] at h
        cases h
        exact List.chain'_singleton _
      | cons b rest =>
        rw [hbk] at hs
        rw [ChainSorted, List.chain'_cons'] at hs
        by_cases h1 : 1 < b.count
        · rw [encounteredCore_insert_new_eq s v b rest hlk hlt hbk h1] at h
          cases h
          rw [ChainSorted, List.chain'_cons']
          constructor
          · intro y hy
            simp only [List.head?_cons, Option.mem_def, Option.some.injEq] at hy
            rw [← hy]
            exact h1
          · rw [List.chain'_cons']
            exact hs
        · by_cases h2 : b.count = 1
          · rw [encounteredCore_insert_head_eq s v b rest hlk hlt hbk h1 h2] at h
            cases h
            rw [ChainSorted, List.chain'_cons']
            exact hs
          · rw [encounteredCore_headCountNotOne_eq s v b rest hlk hlt hbk h1 h2] at h
            cases h
    · cases hbk : s.buckets with
      | nil =>
        rw [encounteredCore_ubEmpty_eq s v hlk hlt hbk] at h
        cases h
      | cons b rest =>
        cases hel : b.elements with
        | nil =>
          rw [encounteredCore_emptyHead_eq s v b rest hlk hlt hbk hel] at h
          cases h
        | cons vic relems =>
          rw [encounteredCore_replace_eq s v b vic relems rest hlk hlt hbk hel] at h
          refine incrementCounter_sorted _ _ _ _ (by omega) ?_ h
          rw [hbk] at hs
          rw [ChainSorted, List.chain'_cons'] at hs
          show ChainSorted ({ b with elements := relems ++ [⟨v, b.count⟩] } :: rest)
          rw [ChainSorted, List.chain'_cons']
          exact hs

theorem encountered_sorted (typeOf : V → T) (s s' : TopkVal V T) (v : V)
    (hs : ChainSorted s.buckets) (h : encountered typeOf s v = .ok s') :
    ChainSorted s'.buckets := by
  unfold encountered at h
  split at h
  · split at h
    · cases h
    · exact encounteredCore_sorted { s with type := some (typeOf v) } s' v hs h
  · split at h
    · split at h
      · exact encounteredCore_sorted s s' v hs h
      · cases h; exact hs
    · cases h; exact hs

theorem mergeElem_sorted_pos (s s' : TopkVal V T) (ev : V) (eps cnt : Nat) (hcnt : 0 < cnt)
    (hs : ChainSorted s.buckets) (hP : PositiveCounts s.buckets)
    (h : mergeElem s ev eps cnt = .ok s') :
    ChainSorted s'.buckets ∧ PositiveCounts s'.buckets := by
  cases hlk : lookupElem s.buckets ev with
  | some e0 =>
    unfold mergeElem at h
    rw [hlk] at h
    have hsadd : ChainSorted (addEpsilon s.buckets ev eps) :=
      (chainSorted_addEpsilon _ _ _).2 hs
    have hPadd : PositiveCounts (addEpsilon s.buckets ev eps) :=
      (positiveCounts_addEpsilon _ _ _).2 hP
    exact ⟨incrementCounter_sorted _ _ _ _ hcnt hsadd h,
      incrementCounter_pos _ _ _ _ hPadd h⟩
  | none =>
    rw [mergeElem_absent_eq s ev eps cnt hlk hP] at h
    cases h
    constructor
    · show ChainSorted (bucketInsert s.buckets (0 + cnt) (⟨ev, 0 + eps⟩ : Element V))
      refine (bucketInsert_sorted s.buckets (0 + cnt) _ 0 hs ?_ (by omega)).1
      intro b hb
      rcases hbk : s.buckets with _ | ⟨b1, rest⟩
      · rw [hbk] at hb; cases hb
      · rw [hbk] at hb
        simp only [List.head?_cons, Option.mem_def, Option.some.injEq] at hb
        rw [← hb]
        exact hP b1 (by rw [hbk]; exact List.mem_cons_self _ _)
    · show PositiveCounts (bucketInsert s.buckets (0 + cnt) (⟨ev, 0 + eps⟩ : Element V))
      intro b hb
      rcases mem_bucketInsert _ _ _ _ hb with h | ⟨b0, hb0, hc⟩
      · rw [h]; omega
      · rw [hc]; exact hP b0 hb0

theorem pruneOnce_sorted_pos (s s' : TopkVal V T)
    (hs : ChainSorted s.buckets) (hP : PositiveCounts s.buckets)
    (h : pruneOnce s = .ok s') :
    ChainSorted s'.buckets ∧ PositiveCounts s'.buckets := by
  obtain ⟨sz, n, p, ty, bs⟩ := s
  cases bs with
  | nil => cases h
  | cons b rest =>
    obtain ⟨c, els⟩ := b
    cases els with
    | nil => cases h
    | cons e es =>
      cases h
      simp only at hs hP ⊢
      rw [ChainSorted, List.chain'_cons'] at hs
      constructor
      · show ChainSorted (if es.isEmpty = true then rest else ⟨c, es⟩ :: rest)
        split
        · exact hs.2
        · rw [ChainSorted, List.chain'_cons']
          exact hs
      · show PositiveCounts (if es.isEmpty = true then rest else ⟨c, es⟩ :: rest)
        intro b hb
        split at hb
        · exact hP b (List.mem_cons_of_mem _ hb)
        · rcases List.mem_cons.1 hb with h' | h'
          · rw [h']
            exact hP ⟨c, e :: es⟩ (List.mem_cons_self _ _)
          · exact hP b (List.mem_cons_of_mem _ h')

theorem pruneLoop_sorted_pos (fuel : Nat) (s s' : TopkVal V T)
    (hs : ChainSorted s.buckets) (hP : PositiveCounts s.buckets)
    (h : pruneLoop fuel s = .ok s') :
    ChainSorted s'.buckets ∧ PositiveCounts s'.buckets := by
  induction fuel generalizing s with
  | zero =>
    have h' : Except.ok (ε := CFail) s = Except.ok s' := h
    cases h'
    exact ⟨hs, hP⟩
  | succ fuel ih =>
    unfold pruneLoop at h
    by_cases hc : s.size < s.numElements
    · rw [if_pos hc] at h
      obtain ⟨s1, h1, h2⟩ := except_bind_ok _ _ _ h
      obtain ⟨hs1, hP1⟩ := pruneOnce_sorted_pos s s1 hs hP h1
      exact ih s1 hs1 hP1 h2
    · rw [if_neg hc] at h
      cases h
      exact ⟨hs, hP⟩

theorem mergeAll_sorted_pos (s s' : TopkVal V T) (srcBuckets : List (Bucket V))
    (hsrc : PositiveCounts srcBuckets)
    (hs : ChainSorted s.buckets) (hP : PositiveCounts s.buckets)
    (h : mergeAll s srcBuckets = .ok s') :
    ChainSorted s'.buckets ∧ PositiveCounts s'.buckets := by
  refine foldlM_except_preserve
    (fun st => ChainSorted st.buckets ∧ PositiveCounts st.buckets) _ srcBuckets ?_
    s s' h ⟨hs, hP⟩
  intro acc b acc' hbmem hstep hacc
  refine foldlM_except_preserve
    (fun st => ChainSorted st.buckets ∧ PositiveCounts st.buckets) _ b.elements ?_
    acc acc' hstep hacc
  intro a e a' _ hm hPa
  exact mergeElem_sorted_pos a a' e.value e.epsilon b.count (hsrc b hbmem) hPa.1 hPa.2 hm

theorem mergeBody_sorted (s src : TopkVal V T) (dp : Bool) (s' : TopkVal V T)
    (hsrc : PositiveCounts src.buckets)
    (hs : ChainSorted s.buckets) (hP : PositiveCounts s.buckets)
    (h : mergeBody s src dp = .ok s') : ChainSorted s'.buckets := by
  unfold mergeBody at h
  obtain ⟨s1, h1, h2⟩ := except_bind_ok _ _ _ h
  obtain ⟨hs1, hP1⟩ := mergeAll_sorted_pos s s1 src.buckets hsrc hs hP h1
  by_cases hsz : 0 < s1.size
  · rw [if_pos hsz] at h2
    cases dp with
    | false =>
      have h2' : Except.ok (ε := CFail) s1 = Except.ok s' := h2
      cases h2'
      exact hs1
    | true => exact (pruneLoop_sorted_pos _ _ _ hs1 hP1 h2).1
  · rw [if_neg hsz] at h2
    cases h2

theorem merge_sorted (s src : TopkVal V T) (dp : Bool) (s' : TopkVal V T)
    (hsrc : PositiveCounts src.buckets)
    (hs : ChainSorted s.buckets) (hP : PositiveCounts s.buckets)
    (h : merge s src dp = .ok s') : ChainSorted s'.buckets := by
  unfold merge at h
  split at h
  · split at h
    · cases h; exact hs
    · cases h
  · rename_i t heq
    split at h
    · split at h
      · exact mergeBody_sorted s src dp s' hsrc hs hP h
      · cases h; exact hs
    · split at h
      · exact mergeBody_sorted { s with type := some t } src dp s' hsrc hs hP h
      · cases h

theorem chainSorted_pairwise (bs : List (Bucket V)) (h : ChainSorted bs) :
    List.Pairwise (fun a b : Bucket V => a.count < b.count) bs := by
  haveI : IsTrans (Bucket V) (fun a b => a.count < b.count) :=
    ⟨fun a b c hab hbc => Nat.lt_trans hab hbc⟩
  exact List.chain'_iff_pairwise.mp h

theorem bucketInsert_skip_all (l1 rest : List (Bucket V)) (t : Nat) (e : Element V)
    (hlt : ∀ b ∈ l1, b.count < t) :
    bucketInsert (l1 ++ rest) t e = l1 ++ bucketInsert rest t e := by
  induction l1 with
  | nil => rfl
  | cons a l1' ih =>
    simp only [List.cons_append, bucketInsert, if_pos (hlt a (List.mem_cons_self _ _))]
    show a :: bucketInsert (l1' ++ rest) t e = _
    rw [ih (fun b hb => hlt b (List.mem_cons_of_mem _ hb))]

theorem bucketInsert_reuse (post : List (Bucket V)) (t : Nat) (e : Element V) (b0 : Bucket V)
    (hs : ChainSorted post) (hf : post.find? (fun b => b.count = t) = some b0) :
    ∃ l1 l2, post = l1 ++ b0 :: l2 ∧
      bucketInsert post t e = l1 ++ ⟨b0.count, b0.elements ++ [e]⟩ :: l2 := by
  have hb0t : b0.count = t := by simpa using List.find?_some hf
  obtain ⟨l1, l2, hdec, _⟩ := find?_decomp _ _ _ hf
  have hpw := chainSorted_pairwise _ hs
  rw [hdec] at hpw
  have hl1lt : ∀ b ∈ l1, b.count < t := by
    intro b hb
    have := (List.pairwise_append.1 hpw).2.2 b hb b0 (List.mem_cons_self _ _)
    omega
  refine ⟨l1, l2, hdec, ?_⟩
  rw [hdec, bucketInsert_skip_all l1 _ t e hl1lt]
  congr 1
  simp only [bucketInsert, if_neg (by omega : ¬ b0.count < t), if_pos hb0t]

theorem bucketInsert_new (post : List (Bucket V)) (t : Nat) (e : Element V) :
    ChainSorted post → post.find? (fun b => b.count = t) = none →
    ∃ l1 l2, post = l1 ++ l2 ∧ (∀ b ∈ l1, b.count < t) ∧ (∀ b ∈ l2.head?, t < b.count) ∧
      bucketInsert post t e = l1 ++ ⟨t, [e]⟩ :: l2 := by
  induction post with
  | nil => intro _ _; exact ⟨[], [], rfl, by simp, by simp, rfl⟩
  | cons b rest ih =>
    intro hs hf
    have hbne : ¬ b.count = t := by
      simpa using List.find?_eq_none.1 hf b (List.mem_cons_self _ _)
    by_cases hblt : b.count < t
    · have hf' : rest.find? (fun b => b.count = t) = none :=
        List.find?_eq_none.2 (fun x hx => List.find?_eq_none.1 hf x (List.mem_cons_of_mem _ hx))
      have hs' : ChainSorted rest := (List.chain'_cons'.1 hs).2
      obtain ⟨l1, l2, hdec, hl1, hl2, heq⟩ := ih hs' hf'
      refine ⟨b :: l1, l2, by rw [hdec]; rfl, ?_, hl2, ?_⟩
      · intro x hx
        rcases List.mem_cons.1 hx with h' | h'
        · rw [h']; exact hblt
        · exact hl1 x h'
      · simp only [bucketInsert, if_pos hblt, List.cons_append]
        rw [heq]
    · have hbgt : t < b.count := by omega
      refine ⟨[], b :: rest, rfl, by simp, ?_, ?_⟩
      · intro x hx
        simp only [List.head?_cons, Option.mem_def, Option.some.injEq] at hx
        rw [← hx]; exact hbgt
      · simp only [bucketInsert, if_neg hblt, if_neg hbne, List.nil_append]

theorem split_nodup_facts (s : TopkVal V T) (v : V)
    (pre post : List (Bucket V)) (cur : Bucket V) (e : Element V)
    (hsp : splitAtElem s.buckets v = some (pre, cur, post, e))
    (hnd : (chainValues s.buckets).Nodup) :
    v ∉ chainValues post ∧
      v ∉ (cur.elements.eraseP (fun x => x.value = v)).map (fun x => x.value) := by
  obtain ⟨hchain, hfind, _⟩ := splitAtElem_eq_some _ _ _ _ _ _ hsp
  have hev : e.value = v := (find?_value_eq _ _ _ hfind).2
  obtain ⟨l1, l2, hdecomp, hl1⟩ := find?_decomp _ _ _ hfind
  have herase : cur.elements.eraseP (fun x => x.value = v) = l1 ++ l2 := by
    rw [hdecomp, List.eraseP_append_right _ hl1, List.eraseP_cons_of_pos (by simp [hev])]
  have hcveq : chainValues s.buckets =
      (chainValues pre ++ l1.map (fun x => x.value)) ++
        v :: (l2.map (fun x => x.value) ++ chainValues post) := by
    rw [hchain, chainValues_append, chainValues_cons, hdecomp, List.map_append, List.map_cons,
      hev]
    simp [List.append_assoc]
  have hvtail : v ∉ l2.map (fun x => x.value) ++ chainValues post := by
    have hsub : (v :: (l2.map (fun x => x.value) ++ chainValues post)).Sublist
        (chainValues s.buckets) := by
      rw [hcveq]
      exact (List.suffix_append _ _).sublist
    exact (List.nodup_cons.1 (hnd.sublist hsub)).1
  constructor
  · exact fun hm => hvtail (List.mem_append_right _ hm)
  · rw [herase, List.map_append]
    intro hm
    rcases List.mem_append.1 hm with h | h
    · rcases List.mem_map.1 h with ⟨x, hx, hxv⟩
      exact absurd (by simpa using hl1 x hx) (by simp [hxv])
    · exact hvtail (List.mem_append_left _ h)

/-! ## Claim C6 -/

/-- Claim C6: for an element of value v in bucket cur and delta at least 1,
IncrementCounter moves the element to the bucket of count cur.count + delta:
if a bucket with that count exists later in the chain it is reused and the
element is appended at the end of its list, otherwise a fresh bucket holding
just the element is created (with the chain staying strictly sorted, which
places it right before the first bucket of count at least the target); the
old bucket either keeps its other elements or, if the element was its last
one, disappears from the chain. -/
theorem incrementCounter_spec (s : TopkVal V T) (v : V) (d : Nat)
    (pre post : List (Bucket V)) (cur : Bucket V) (e : Element V)
    (hsp : splitAtElem s.buckets v = some (pre, cur, post, e))
    (hs : ChainSorted s.buckets)
    (hnd : (chainValues s.buckets).Nodup)
    (hd : 1 ≤ d) :
    ∃ s', incrementCounter s v d = .ok s' ∧
      (∃ pre2 db post2, splitAtElem s'.buckets v = some (pre2, db, post2, e) ∧
        db.count = cur.count + d ∧ db.elements.getLast? = some e ∧
        (match post.find? (fun b => b.count = cur.count + d) with
         | some b0 => db.elements = b0.elements ++ [e]
         | none => db.elements = [e])) ∧
      ((cur.elements.eraseP (fun x => x.value = v)).isEmpty = true →
        ∀ b ∈ s'.buckets, b.count ≠ cur.count) ∧
      ((cur.elements.eraseP (fun x => x.value = v)).isEmpty = false →
        { cur with elements := cur.elements.eraseP (fun x => x.value = v) } ∈ s'.buckets) ∧
      ChainSorted s'.buckets := by
  obtain ⟨hchain, hfind, hprenm⟩ := splitAtElem_eq_some _ _ _ _ _ _ hsp
  have hev : e.value = v := (find?_value_eq _ _ _ hfind).2
  obtain ⟨hvpost, hvrem⟩ := split_nodup_facts s v pre post cur e hsp hnd
  have hok := incrementCounter_eq_ok s v d pre post cur e hsp
  set t := cur.count + d with ht
  set rem := cur.elements.eraseP (fun x => x.value = v) with hrem
  have hpw : List.Pairwise (fun a b : Bucket V => a.count < b.count) s.buckets :=
    chainSorted_pairwise _ hs
  rw [hchain] at hpw
  have hprelt : ∀ b ∈ pre, b.count < cur.count := by
    intro b hb
    exact (List.pairwise_append.1 hpw).2.2 b hb cur (List.mem_cons_self _ _)
  have hpostgt : ∀ b ∈ post, cur.count < b.count := by
    intro b hb
    have := (List.pairwise_append.1 hpw).2.1
    rw [List.pairwise_cons] at this
    exact this.1 b hb
  have hpostsorted : ChainSorted post := by
    rw [hchain] at hs
    rw [ChainSorted, List.chain'_append] at hs
    exact (List.chain'_cons'.1 hs.2.1).2
  have hsort' : ∀ s2, incrementCounter s v d = .ok s2 → ChainSorted s2.buckets :=
    fun s2 h2 => incrementCounter_sorted s s2 v d (by omega) hs h2
  have hmid : ∀ q : List (Bucket V),
      splitAtElem ((if rem.isEmpty then pre ++ q else pre ++ ({ cur with elements := rem } :: q))) v
        = (splitAtElem q v).map (fun x =>
            ((if rem.isEmpty then pre else pre ++ [{ cur with elements := rem }]) ++ x.1,
              x.2.1, x.2.2.1, x.2.2.2)) := by
    intro q
    split
    · rw [splitAtElem_append pre q v hprenm]
    · have hmc : v ∉ chainValues (pre ++ [{ cur with elements := rem }]) := by
        rw [chainValues_append, chainValues_cons, chainValues_nil, List.append_nil]
        intro hm
        rcases List.mem_append.1 hm with h | h
        · exact hprenm h
        · exact hvrem h
      have : pre ++ ({ cur with elements := rem } :: q) =
          (pre ++ [{ cur with elements := rem }]) ++ q := by simp
      rw [this, splitAtElem_append _ q v hmc]
  refine ⟨_, hok, ?_, ?_, ?_, hsort' _ hok⟩
  · cases hfq : post.find? (fun b => b.count = t) with
    | some b0 =>
      obtain ⟨l1, l2, hdec, hbeq⟩ := bucketInsert_reuse post t e b0 hpostsorted hfq
      have hvl1 : v ∉ chainValues l1 := by
        intro hm
        exact hvpost (by rw [hdec, chainValues_append]; exact List.mem_append_left _ hm)
      have hvb0 : b0.elements.find? (fun x => x.value = v) = none := by
        rw [List.find?_eq_none]
        intro x hx
        simp only [decide_eq_true_eq]
        intro hxv
        exact hvpost (by
          rw [hdec, chainValues_append, chainValues_cons]
          exact List.mem_append_right _ (List.mem_append_left _ (List.mem_map.2 ⟨x, hx, hxv⟩)))
      have hfb0 : (b0.elements ++ [e]).find? (fun x => x.value = v) = some e := by
        rw [find?_append_none _ _ _ hvb0]
        simp [List.find?_cons, hev]
      have hsplit2 : splitAtElem (bucketInsert post t e) v =
          some (l1, ⟨b0.count, b0.elements ++ [e]⟩, l2, e) := by
        rw [hbeq, splitAtElem_append l1 _ v hvl1]
        simp [splitAtElem, hfb0]
      show ∃ pre2 db post2,
          splitAtElem (if rem.isEmpty = true then pre ++ bucketInsert post t e
            else pre ++ ({ cur with elements := rem } :: bucketInsert post t e)) v =
            some (pre2, db, post2, e) ∧ _
      rw [hmid (bucketInsert post t e), hsplit2]
      have hb0t : b0.count = t := by simpa using List.find?_some hfq
      refine ⟨_, _, _, rfl, hb0t, List.getLast?_concat _, rfl⟩
    | none =>
      obtain ⟨l1, l2, hdec, hl1lt, hl2gt, hbeq⟩ := bucketInsert_new post t e hpostsorted hfq
      have hvl1 : v ∉ chainValues l1 := by
        intro hm
        exact hvpost (by rw [hdec, chainValues_append]; exact List.mem_append_left _ hm)
      have hsplit2 : splitAtElem (bucketInsert post t e) v =
          some (l1, ⟨t, [e]⟩, l2, e) := by
        rw [hbeq, splitAtElem_append l1 _ v hvl1]
        simp only [splitAtElem]
        simp [List.find?_cons, hev]
      show ∃ pre2 db post2,
          splitAtElem (if rem.isEmpty = true then pre ++ bucketInsert post t e
            else pre ++ ({ cur with elements := rem } :: bucketInsert post t e)) v =
            some (pre2, db, post2, e) ∧ _
      rw [hmid (bucketInsert post t e), hsplit2]
      exact ⟨_, _, _, rfl, rfl, rfl, rfl⟩
  · intro hempty b hb
    rw [if_pos hempty] at hb
    rcases List.mem_append.1 hb with h | h
    · have := hprelt b h
      omega
    · rcases mem_bucketInsert _ _ _ _ h with h' | ⟨b0, hb0, hc⟩
      · rw [h']
        omega
      · rw [hc]
        have := hpostgt b0 hb0
        omega
  · intro hnonempty
    rw [if_neg (by rw [hnonempty]; simp)]
    exact List.mem_append_right _ (List.mem_cons_self _ _)

/-- Claim C6 witness: a sorted two-bucket chain where incrementing value 10
(in the count-1 bucket) by 2 reuses the existing count-3 bucket and drops the
emptied old bucket. -/
theorem incrementCounter_spec_witness :
    ∃ s', incrementCounter
        (⟨5, 2, false, some (), [⟨1, [⟨10, 0⟩]⟩, ⟨3, [⟨20, 0⟩]⟩]⟩ : TopkVal Nat Unit) 10 2 =
        .ok s' ∧
      (∃ pre2 db post2, splitAtElem s'.buckets 10 = some (pre2, db, post2, ⟨10, 0⟩) ∧
        db.count = 1 + 2 ∧ db.elements.getLast? = some ⟨10, 0⟩ ∧
        (match ([⟨3, [⟨20, 0⟩]⟩] : List (Bucket Nat)).find? (fun b => b.count = 1 + 2) with
         | some b0 => db.elements = b0.elements ++ [⟨10, 0⟩]
         | none => db.elements = [⟨10, 0⟩])) ∧
      ((([⟨10, 0⟩] : List (Element Nat)).eraseP (fun x => x.value = 10)).isEmpty = true →
        ∀ b ∈ s'.buckets, b.count ≠ 1) ∧
      ((([⟨10, 0⟩] : List (Element Nat)).eraseP (fun x => x.value = 10)).isEmpty = false →
        (⟨1, ([⟨10, 0⟩] : List (Element Nat)).eraseP (fun x => x.value = 10)⟩ : Bucket Nat)
          ∈ s'.buckets) ∧
      ChainSorted s'.buckets :=
  incrementCounter_spec (⟨5, 2, false, some (), [⟨1, [⟨10, 0⟩]⟩, ⟨3, [⟨20, 0⟩]⟩]⟩ : TopkVal Nat Unit)
    10 2 [] [⟨3, [⟨20, 0⟩]⟩] ⟨1, [⟨10, 0⟩]⟩ ⟨10, 0⟩ rfl (by decide) (by decide) (by decide)

theorem except_map_ok {E A B : Type} (x : Except E A) (g : A → B) (b : B)
    (h : x.map g = .ok b) : ∃ a, x = .ok a ∧ g a = b := by
  cases x with
  | error e => exact Except.noConfusion h
  | ok a =>
    refine ⟨a, rfl, ?_⟩
    have h' : Except.ok (ε := E) (g a) = .ok b := h
    cases h'
    rfl

theorem toValTok_some (ty : Option T) (tok : BTok V T) (x : V)
    (h : toValTok ty tok = some x) : (∃ t, ty = some t) ∧ tok = .val x := by
  cases ty with
  | none => simp [toValTok] at h
  | some t =>
    cases tok with
    | val y =>
      simp only [toValTok, Option.some.injEq] at h
      exact ⟨⟨t, rfl⟩, by rw [h]⟩
    | count c => simp [toValTok] at h
    | bool b => simp [toValTok] at h
    | typ t2 => simp [toValTok] at h
    | nil => simp [toValTok] at h

theorem parseElems_sound (ty : Option T) (n : Nat) (toks : List (BTok V T)) (seen : List V)
    (es : List (Element V)) (rest : List (BTok V T)) (seen2 : List V)
    (h : parseElems ty n toks seen = .ok (es, rest, seen2)) :
    toks = serElems es ++ rest ∧ es.length = n := by
  induction n generalizing toks seen es seen2 with
  | zero =>
    have h' : Except.ok (ε := PFail) (([] : List (Element V)), toks, seen) =
        .ok (es, rest, seen2) := h
    cases h'
    exact ⟨rfl, rfl⟩
  | succ n' ih =>
    cases toks with
    | nil => cases h
    | cons t1 ts =>
      cases t1 with
      | count eps =>
        cases ts with
        | nil => cases h
        | cons tok rest2 =>
          cases htv : toValTok ty tok with
          | none =>
            simp [parseElems, htv] at h
          | some x =>
            obtain ⟨⟨t0, hty0⟩, htok⟩ := toValTok_some ty tok x htv
            subst htok
            simp only [parseElems, htv] at h
            by_cases hxs : x ∈ seen
            · rw [if_pos hxs] at h
              cases h
            · rw [if_neg hxs] at h
              obtain ⟨⟨es', r', s'⟩, hrec, hmap⟩ := except_map_ok _ _ _ h
              simp only [Prod.mk.injEq] at hmap
              obtain ⟨h1, h2, h3⟩ := hmap
              subst h1; subst h2; subst h3
              obtain ⟨hts, hlen⟩ := ih rest2 (x :: seen) es' s' hrec
              constructor
              · rw [hts]
                rfl
              · simp [hlen]
      | bool b => cases h
      | typ t => cases h
      | nil => cases h
      | val y => cases h

theorem parseChain_sound (ty : Option T) (fuel : Nat) :
    ∀ (toks : List (BTok V T)) (seen : List V) (i n : Nat) (bs : List (Bucket V))
      (leftover : List (BTok V T)),
      parseChain ty fuel toks seen i n = .ok (bs, leftover) →
      toks = serBuckets bs ++ leftover ∧ n ≤ i + totalElems bs := by
  induction fuel with
  | zero =>
    intro toks seen i n bs leftover h
    unfold parseChain at h
    by_cases hin : i < n
    · rw [if_pos hin] at h
      cases h
    · rw [if_neg hin] at h
      have h' : Except.ok (ε := PFail) (([] : List (Bucket V)), toks) = .ok (bs, leftover) := h
      cases h'
      exact ⟨rfl, by simp [totalElems]; omega⟩
  | succ fuel' ih =>
    intro toks seen i n bs leftover h
    unfold parseChain at h
    by_cases hin : i < n
    · rw [if_pos hin] at h
      cases toks with
      | nil => cases h
      | cons t1 ts =>
        cases t1 with
        | count ec =>
          cases ts with
          | nil => cases h
          | cons t2 rest0 =>
            cases t2 with
            | count c =>
              obtain ⟨⟨es, rest2, seen2⟩, hpe, hrec⟩ := except_bind_ok _ _ _ h
              obtain ⟨⟨bs', leftover'⟩, hpc, hmap⟩ := except_map_ok _ _ _ hrec
              simp only [Prod.mk.injEq] at hmap
              obtain ⟨h1, h2⟩ := hmap
              subst h1; subst h2
              obtain ⟨hts, hlen⟩ := parseElems_sound ty ec rest0 seen es rest2 seen2 hpe
              obtain ⟨hrest2, hle⟩ := ih rest2 seen2 (i + ec) n bs' leftover' hpc
              constructor
              · simp only [serBuckets, List.flatMap_cons, List.cons_append, List.append_assoc]
                rw [hts, hrest2, hlen]
                simp [serBuckets]
              · simp only [totalElems, List.map_cons, List.sum_cons]
                simp only [totalElems] at hle
                omega
            | bool b => cases h
            | typ t => cases h
            | nil => cases h
            | val y => cases h
        | bool b => cases h
        | typ t => cases h
        | nil => cases h
        | val y => cases h
    · rw [if_neg hin] at h
      have h' : Except.ok (ε := PFail) (([] : List (Bucket V)), toks) = .ok (bs, leftover) := h
      cases h'
      exact ⟨rfl, by simp [totalElems]; omega⟩

/-! ## Claim C8 -/

/-- Claim C8 counterexample: a payload declaring num_elements = 1 whose single
bucket record carries two elements is accepted — the loop stops once at least
num_elements entries are in, so the total consumed (2) differs from the
num_elements field (1), refuting condition (b) of the claim. -/
theorem unserialize_overshoot_counterexample :
    doUnserialize ([.count 3, .count 1, .bool false, .typ (), .count 2, .count 5, .count 0,
        .val 1, .count 0, .val 2] : List (BTok Nat Unit)) =
      .ok ⟨3, 1, false, some (), [⟨5, [⟨1, 0⟩, ⟨2, 0⟩]⟩]⟩ ∧
    totalElems ([⟨5, [⟨1, 0⟩, ⟨2, 0⟩]⟩] : List (Bucket Nat)) ≠
      (⟨3, 1, false, some (), [⟨5, [⟨1, 0⟩, ⟨2, 0⟩]⟩]⟩ : TopkVal Nat Unit).numElements :=
  ⟨rfl, by decide⟩

/-- Claim C8 amended: accepted payloads consist of exactly the four header
positions (count, count, bool, type-or-nil) followed by whole bucket records
that rebuild the returned chain with no trailing data, and the element
entries consumed are at least — not exactly — the num_elements field: a final
bucket record may overshoot it and still be accepted.  (Beyond the header
types, acceptance also needs every element value to convert and element
values to be distinct, or the convert/assert paths reject.) -/
theorem doUnserialize_sound (toks : List (BTok V T)) (s' : TopkVal V T)
    (h : doUnserialize toks = .ok s') :
    toks = .count s'.size :: .count s'.numElements :: .bool s'.pruned ::
      (match s'.type with | some t => BTok.typ t | none => BTok.nil) ::
        serBuckets s'.buckets ∧
    s'.numElements ≤ totalElems s'.buckets := by
  unfold doUnserialize at h
  split at h
  · rename_i sz nE pr tok3 rest
    cases tok3 with
    | nil =>
      split at h
      · cases h
      · rename_i ty2 hty2
        have h3 : some (none : Option T) = some ty2 := hty2
        cases h3
        split at h
        · cases h
        · cases h
        · rename_i bs leftover hpc
          by_cases hemp : leftover.isEmpty = true
          · rw [if_pos hemp] at h
            cases h
            obtain ⟨hrest, hle⟩ := parseChain_sound _ _ rest [] 0 nE bs leftover hpc
            have hlo : leftover = [] := List.isEmpty_iff.1 hemp
            rw [hlo, List.append_nil] at hrest
            exact ⟨by rw [hrest], by simpa using hle⟩
          · rw [if_neg hemp] at h
            cases h
    | typ t =>
      split at h
      · cases h
      · rename_i ty2 hty2
        have h3 : some (some t) = some ty2 := hty2
        cases h3
        split at h
        · cases h
        · cases h
        · rename_i bs leftover hpc
          by_cases hemp : leftover.isEmpty = true
          · rw [if_pos hemp] at h
            cases h
            obtain ⟨hrest, hle⟩ := parseChain_sound _ _ rest [] 0 nE bs leftover hpc
            have hlo : leftover = [] := List.isEmpty_iff.1 hemp
            rw [hlo, List.append_nil] at hrest
            exact ⟨by rw [hrest], by simpa using hle⟩
          · rw [if_neg hemp] at h
            cases h
    | count c => cases h
    | bool b => cases h
    | val x => cases h
  · cases h

/-- Witness for doUnserialize_sound at a concrete accepted payload. -/
theorem doUnserialize_sound_witness :
    ([BTok.count 3, BTok.count 1, BTok.bool false, BTok.typ (), BTok.count 1,
        BTok.count 5, BTok.count 0, BTok.val 7] : List (BTok Nat Unit)) =
      BTok.count 3 :: BTok.count 1 :: BTok.bool false :: BTok.typ () ::
        serBuckets ([⟨5, [⟨7, 0⟩]⟩] : List (Bucket Nat)) ∧
    (1 : Nat) ≤ totalElems ([⟨5, [⟨7, 0⟩]⟩] : List (Bucket Nat)) :=
  doUnserialize_sound
    ([BTok.count 3, BTok.count 1, BTok.bool false, BTok.typ (), BTok.count 1,
        BTok.count 5, BTok.count 0, BTok.val 7] : List (BTok Nat Unit))
    ⟨3, 1, false, some (), [⟨5, [⟨7, 0⟩]⟩]⟩ rfl

/-! ## Claim C7 -/

/-- Claim C7 counterexample: DoUnserialize accepts a payload whose bucket
records have counts 5 then 3, returning a chain that violates the strict
ascending order, so the invariant does not hold at the deserialization
boundary. -/
theorem unserialize_unsorted_counterexample :
    doUnserialize ([.count 5, .count 2, .bool false, .typ (), .count 1, .count 5, .count 0,
        .val 1, .count 1, .count 3, .count 0, .val 2] : List (BTok Nat Unit)) =
      .ok ⟨5, 2, false, some (), [⟨5, [⟨1, 0⟩]⟩, ⟨3, [⟨2, 0⟩]⟩]⟩ ∧
    ¬ ChainSorted ([⟨5, [⟨1, 0⟩]⟩, ⟨3, [⟨2, 0⟩]⟩] : List (Bucket Nat)) :=
  ⟨rfl, by decide⟩

/-- Claim C7 amended: the strict chain ordering is an invariant of
Encountered (from a sorted chain) and of Merge (from a sorted chain with the
positive-count invariant on both sketches), but deserialization does not
validate it — a payload with non-ascending bucket counts is accepted and
returns an unsorted chain. -/
theorem chain_order_preserved (typeOf : V → T) :
    (∀ (s s' : TopkVal V T) (v : V), ChainSorted s.buckets →
      encountered typeOf s v = .ok s' → ChainSorted s'.buckets) ∧
    (∀ (s src s' : TopkVal V T) (dp : Bool), ChainSorted s.buckets →
      PositiveCounts s.buckets → PositiveCounts src.buckets →
      merge s src dp = .ok s' → ChainSorted s'.buckets) ∧
    (doUnserialize ([.count 5, .count 2, .bool false, .typ (), .count 1, .count 5, .count 0,
        .val 1, .count 1, .count 3, .count 0, .val 2] : List (BTok Nat Unit)) =
        .ok ⟨5, 2, false, some (), [⟨5, [⟨1, 0⟩]⟩, ⟨3, [⟨2, 0⟩]⟩]⟩ ∧
      ¬ ChainSorted ([⟨5, [⟨1, 0⟩]⟩, ⟨3, [⟨2, 0⟩]⟩] : List (Bucket Nat))) :=
  ⟨fun s s' v hs h => encountered_sorted typeOf s s' v hs h,
   fun s src s' dp hs hP hsrc h => merge_sorted s src dp s' hsrc hs hP h,
   rfl, by decide⟩

/-- Claim C7 witness: the amended theorem applied at concrete inputs — one
Encountered call and one Merge call, each returning a sorted chain. -/
theorem chain_order_preserved_witness :
    ChainSorted ((⟨3, 1, false, some (), [⟨1, [⟨5, 0⟩]⟩]⟩ : TopkVal Nat Unit)).buckets ∧
    ChainSorted ((⟨3, 0, false, some (), []⟩ : TopkVal Nat Unit)).buckets :=
  ⟨(chain_order_preserved (fun _ => ())).1 (topkInit Nat Unit 3)
      ⟨3, 1, false, some (), [⟨1, [⟨5, 0⟩]⟩]⟩ 5 (by decide) rfl,
   (chain_order_preserved (fun _ => ())).2.1 ⟨3, 0, false, some (), []⟩
      (topkDefault Nat Unit) ⟨3, 0, false, some (), []⟩ false (by decide) (by decide)
      (by decide) rfl⟩

/-! ## Claim C9 -/

theorem emitTopK_spec (bs : List (Bucket V)) (k : Nat) :
    ∀ read, ∃ n, n ≤ bs.length ∧
      emitTopK bs k read = (bs.take n).flatMap (fun b => b.elements.map (fun e => e.value)) ∧
      (∀ m, m < n → read + ((bs.take m).map (fun b => b.elements.length)).sum < k) ∧
      (k ≤ read + ((bs.take n).map (fun b => b.elements.length)).sum ∨ n = bs.length) := by
  induction bs with
  | nil =>
    intro read
    exact ⟨0, Nat.le_refl 0, rfl, by omega, Or.inr rfl⟩
  | cons b rest ih =>
    intro read
    by_cases hr : read < k
    · obtain ⟨n, hn, hemit, hlt, hfin⟩ := ih (read + b.elements.length)
      refine ⟨n + 1, by simpa using hn, ?_, ?_, ?_⟩
      · simp only [emitTopK, if_pos hr, List.take_succ_cons, List.flatMap_cons]
        rw [hemit]
      · intro m hm
        cases m with
        | zero => simpa using hr
        | succ m' =>
          have := hlt m' (by omega)
          simp only [List.take_succ_cons, List.map_cons, List.sum_cons]
          omega
      · rcases hfin with h | h
        · left
          simp only [List.take_succ_cons, List.map_cons, List.sum_cons]
          omega
        · right
          simp [h]
    · refine ⟨0, Nat.zero_le _, ?_, by omega, Or.inl ?_⟩
      · simp [emitTopK, if_neg hr]
      · simpa using Nat.le_of_not_lt hr

/-- Claim C9: GetTopK on a sketch with elements emits whole buckets from the
highest-count bucket down, stopping at the first bucket boundary where at
least k values are out (so it may emit more than k), or after the lowest
bucket; on an empty sketch it reports an error and yields nothing. -/
theorem getTopK_spec (s : TopkVal V T) (k : Nat) :
    (s.numElements = 0 → getTopK s k = none) ∧
    (s.numElements ≠ 0 → ∃ n, n ≤ s.buckets.reverse.length ∧
      getTopK s k = some ((s.buckets.reverse.take n).flatMap
        (fun b => b.elements.map (fun e => e.value))) ∧
      (∀ m, m < n → ((s.buckets.reverse.take m).map (fun b => b.elements.length)).sum < k) ∧
      (k ≤ ((s.buckets.reverse.take n).map (fun b => b.elements.length)).sum ∨
        n = s.buckets.reverse.length)) := by
  constructor
  · intro h
    unfold getTopK
    rw [if_pos h]
  · intro h
    obtain ⟨n, hn, hemit, hlt, hfin⟩ := emitTopK_spec s.buckets.reverse k 0
    refine ⟨n, hn, ?_, ?_, ?_⟩
    · unfold getTopK
      rw [if_neg h, hemit]
    · intro m hm
      have := hlt m hm
      omega
    · rcases hfin with hh | hh
      · left; omega
      · right; exact hh

/-- Claim C9 witness: the theorem applied at two concrete sketches — the
empty sketch (error, nothing) and a two-bucket sketch queried with k = 2,
where the top bucket holds one element and the boundary bucket two, so three
values come out. -/
theorem getTopK_spec_witness :
    getTopK (topkDefault Nat Unit) 2 = none ∧
    (∃ n, n ≤ ((⟨3, 3, false, some (), [⟨1, [⟨7, 0⟩, ⟨8, 0⟩]⟩, ⟨4, [⟨9, 0⟩]⟩]⟩ :
        TopkVal Nat Unit)).buckets.reverse.length ∧
      getTopK (⟨3, 3, false, some (), [⟨1, [⟨7, 0⟩, ⟨8, 0⟩]⟩, ⟨4, [⟨9, 0⟩]⟩]⟩ :
          TopkVal Nat Unit) 2 = some ((((⟨3, 3, false, some (),
            [⟨1, [⟨7, 0⟩, ⟨8, 0⟩]⟩, ⟨4, [⟨9, 0⟩]⟩]⟩ :
        TopkVal Nat Unit)).buckets.reverse.take n).flatMap
          (fun b => b.elements.map (fun e => e.value))) ∧
      (∀ m, m < n → ((((⟨3, 3, false, some (), [⟨1, [⟨7, 0⟩, ⟨8, 0⟩]⟩, ⟨4, [⟨9, 0⟩]⟩]⟩ :
          TopkVal Nat Unit)).buckets.reverse.take m).map
            (fun b => b.elements.length)).sum < 2) ∧
      (2 ≤ ((((⟨3, 3, false, some (), [⟨1, [⟨7, 0⟩, ⟨8, 0⟩]⟩, ⟨4, [⟨9, 0⟩]⟩]⟩ :
          TopkVal Nat Unit)).buckets.reverse.take n).map
            (fun b => b.elements.length)).sum ∨
        n = ((⟨3, 3, false, some (), [⟨1, [⟨7, 0⟩, ⟨8, 0⟩]⟩, ⟨4, [⟨9, 0⟩]⟩]⟩ :
          TopkVal Nat Unit)).buckets.reverse.length)) :=
  ⟨(getTopK_spec (topkDefault Nat Unit) 2).1 rfl,
   (getTopK_spec (⟨3, 3, false, some (), [⟨1, [⟨7, 0⟩, ⟨8, 0⟩]⟩, ⟨4, [⟨9, 0⟩]⟩]⟩ :
      TopkVal Nat Unit) 2).2 (by decide)⟩

/-! ## Claim C4 -/

/-- Claim C4 counterexample: merging a source that holds value 7 with
epsilon 1 (in a bucket of count 2) into an empty capacity-4 receiver creates
the new element and then adds the source epsilon unconditionally, so the new
element's epsilon after the merge step is 1, not 0 as claimed. -/
theorem merge_new_element_epsilon_counterexample :
    Except.map (fun s => getEpsilon s 7)
      (merge (topkInit Nat Unit 4) ⟨4, 1, false, some (), [⟨2, [⟨7, 1⟩]⟩]⟩ false) = .ok 1 ∧
    (1 : Nat) ≠ 0 :=
  ⟨rfl, by decide⟩

/-- Claim C4 amended: for a source element already present in the receiver,
its epsilon is added to the existing element's epsilon and the counter is
incremented by the source bucket's count; for an absent hash key the new
element starts at epsilon 0 but the line olde->epsilon += e->epsilon runs for
it as well, so after the merge step its epsilon equals the source element's
epsilon (and its count equals the source bucket's count). -/
theorem mergeElem_epsilon_spec (s : TopkVal V T) (ev : V) (eps cnt : Nat)
    (hnd : (chainValues s.buckets).Nodup) (hP : PositiveCounts s.buckets) :
    (∀ pre cur post e0, splitAtElem s.buckets ev = some (pre, cur, post, e0) →
      ∃ s', mergeElem s ev eps cnt = .ok s' ∧
        getEpsilon s' ev = e0.epsilon + eps ∧ getCount s' ev = cur.count + cnt) ∧
    (lookupElem s.buckets ev = none →
      ∃ s', mergeElem s ev eps cnt = .ok s' ∧
        getEpsilon s' ev = eps ∧ getCount s' ev = cnt ∧
        s'.numElements = s.numElements + 1) := by
  constructor
  · intro pre cur post e0 hsp
    have hlk : lookupElem s.buckets ev = some e0 := by
      unfold lookupElem
      rw [hsp]
      rfl
    have hsp2 := splitAtElem_addEpsilon s.buckets ev eps pre post cur e0 hsp
    have hnd2 : (chainValues (addEpsilon s.buckets ev eps)).Nodup := by
      rw [chainValues_addEpsilon]
      exact hnd
    obtain ⟨s', hok, hcnt, helem, _⟩ := incrementCounter_lookup
      { s with buckets := addEpsilon s.buckets ev eps } ev cnt _ _ _ _ hsp2 hnd2
    refine ⟨s', ?_, ?_, ?_⟩
    · unfold mergeElem
      rw [hlk]
      exact hok
    · unfold getEpsilon
      rw [helem]
      rfl
    · unfold getCount
      rw [hcnt]
      rfl
  · intro hlk
    have hnm : ev ∉ chainValues s.buckets := (lookupElem_eq_none_iff _ _).1 hlk
    obtain ⟨p2, db, q2, hsp2, hdbc, _, _⟩ :=
      splitAtElem_bucketInsert s.buckets (0 + cnt) (⟨ev, 0 + eps⟩ : Element V) hnm
    refine ⟨_, mergeElem_absent_eq s ev eps cnt hlk hP, ?_, ?_, rfl⟩
    · show getEpsilon { s with
        buckets := bucketInsert s.buckets (0 + cnt) (⟨ev, 0 + eps⟩ : Element V),
        numElements := s.numElements + 1 } ev = eps
      unfold getEpsilon
      show ((lookupElem (bucketInsert s.buckets (0 + cnt) (⟨ev, 0 + eps⟩ : Element V)) ev).map
        (fun e => e.epsilon)).getD 0 = eps
      unfold lookupElem
      rw [hsp2]
      simp
    · show getCount { s with
        buckets := bucketInsert s.buckets (0 + cnt) (⟨ev, 0 + eps⟩ : Element V),
        numElements := s.numElements + 1 } ev = cnt
      unfold getCount
      show ((lookupCount (bucketInsert s.buckets (0 + cnt) (⟨ev, 0 + eps⟩ : Element V)) ev)).getD
        0 = cnt
      unfold lookupCount
      rw [hsp2]
      simp [hdbc]

/-- Claim C4 witness: the amended theorem applied at concrete inputs for both
branches — an existing element (value 7, epsilon 1, count 2; source epsilon 5,
source count 3) and an absent one (value 9 into an empty receiver). -/
theorem mergeElem_epsilon_spec_witness :
    (∃ s', mergeElem (⟨4, 1, false, some (), [⟨2, [⟨7, 1⟩]⟩]⟩ : TopkVal Nat Unit) 7 5 3 =
        .ok s' ∧ getEpsilon s' 7 = 1 + 5 ∧ getCount s' 7 = 2 + 3) ∧
    (∃ s', mergeElem (⟨4, 0, false, some (), []⟩ : TopkVal Nat Unit) 9 5 3 = .ok s' ∧
        getEpsilon s' 9 = 5 ∧ getCount s' 9 = 3 ∧ s'.numElements = 0 + 1) :=
  ⟨(mergeElem_epsilon_spec (⟨4, 1, false, some (), [⟨2, [⟨7, 1⟩]⟩]⟩ : TopkVal Nat Unit)
      7 5 3 (by decide) (by decide)).1 [] ⟨2, [⟨7, 1⟩]⟩ [] ⟨7, 1⟩ rfl,
   (mergeElem_epsilon_spec (⟨4, 0, false, some (), []⟩ : TopkVal Nat Unit)
      9 5 3 (by decide) (by decide)).2 rfl⟩

/-! ## Claim C1 -/

/-- Claim C1: on a full typed sketch (numElements = size > 0), Encountered of
a fresh value of the right type evicts the oldest element of the head
(minimum) bucket and removes it from the element table; the new element gets
epsilon equal to the head bucket's count before the increment, is appended to
that bucket, and is incremented once, so afterwards its count is the old
minimum plus one and its epsilon is the old minimum; numElements (and pruned)
are unchanged. -/
theorem encountered_replacement_spec (typeOf : V → T) (s : TopkVal V T) (v : V) (t : T)
    (b0 : Bucket V) (vic : Element V) (relems : List (Element V)) (rest : List (Bucket V))
    (hb : s.buckets = b0 :: rest) (hel : b0.elements = vic :: relems)
    (hty : s.type = some t) (htv : typeOf v = t)
    (hcap : 0 < s.size) (hfull : s.numElements = s.size)
    (hnot : v ∉ chainValues s.buckets)
    (hnd : (chainValues s.buckets).Nodup) :
    ∃ s', encountered typeOf s v = .ok s' ∧
      getCount s' v = b0.count + 1 ∧
      getEpsilon s' v = b0.count ∧
      lookupElem s'.buckets vic.value = none ∧
      s'.numElements = s.numElements ∧ s'.pruned = s.pruned := by
  have hne : ¬ s.numElements = 0 := by rw [hfull]; omega
  have hlt : ¬ s.numElements < s.size := by rw [hfull]; omega
  have henc : encountered typeOf s v = encounteredCore s v := by
    unfold encountered
    rw [if_neg hne, hty]
    simp only [if_pos htv]
  have hlk : lookupElem s.buckets v = none := (lookupElem_eq_none_iff _ _).2 hnot
  have hcore := encounteredCore_replace_eq s v b0 vic relems rest hlk hlt hb hel
  set e : Element V := ⟨v, b0.count⟩ with he
  set b0' : Bucket V := { b0 with elements := relems ++ [e] } with hb0'
  set s2 : TopkVal V T := { s with buckets := b0' :: rest } with hs2
  have hvals : chainValues s.buckets =
      vic.value :: (relems.map (fun x => x.value) ++ chainValues rest) := by
    rw [hb, chainValues_cons, hel, List.map_cons]
    rfl
  have hvrel : v ∉ relems.map (fun x => x.value) := by
    intro hm
    exact hnot (by rw [hvals]; exact List.mem_cons_of_mem _ (List.mem_append_left _ hm))
  have hvrest : v ∉ chainValues rest := by
    intro hm
    exact hnot (by rw [hvals]; exact List.mem_cons_of_mem _ (List.mem_append_right _ hm))
  have hndtail : (relems.map (fun x => x.value) ++ chainValues rest).Nodup := by
    rw [hvals] at hnd
    exact (List.nodup_cons.1 hnd).2
  have hvicnot : vic.value ∉ relems.map (fun x => x.value) ++ chainValues rest := by
    rw [hvals] at hnd
    exact (List.nodup_cons.1 hnd).1
  have hvicv : vic.value ≠ v := by
    intro hq
    exact hnot (by rw [hvals, ← hq]; exact List.mem_cons_self _ _)
  have hfind2 : (relems ++ [e]).find? (fun x => x.value = v) = some e := by
    rw [find?_append_none]
    · simp [he, List.find?_cons]
    · rw [List.find?_eq_none]
      intro x hx
      simp only [decide_eq_true_eq]
      intro hxv
      exact hvrel (List.mem_map.2 ⟨x, hx, hxv⟩)
  have hsp2 : splitAtElem s2.buckets v = some ([], b0', rest, e) := by
    show splitAtElem (b0' :: rest) v = _
    simp only [splitAtElem, hb0', hfind2]
  have hvals2 : chainValues s2.buckets =
      (relems.map (fun x => x.value) ++ [v]) ++ chainValues rest := by
    show chainValues (b0' :: rest) = _
    rw [chainValues_cons, hb0']
    simp [he]
  have hnd2 : (chainValues s2.buckets).Nodup := by
    rw [hvals2]
    have : (relems.map (fun x => x.value) ++ [v]) ++ chainValues rest =
        relems.map (fun x => x.value) ++ v :: chainValues rest := by simp
    rw [this, List.nodup_middle]
    rw [List.nodup_cons]
    constructor
    · intro hm
      rcases List.mem_append.1 hm with h | h
      · exact hvrel h
      · exact hvrest h
    · exact hndtail
  obtain ⟨s', hok, hcnt, helem, hmem⟩ := incrementCounter_lookup s2 v 1 [] rest b0' e hsp2 hnd2
  have hflds := incrementCounter_fields _ _ _ _ hok
  refine ⟨s', by rw [henc, hcore]; exact hok, ?_, ?_, ?_, ?_, ?_⟩
  · unfold getCount
    rw [hcnt]
    rfl
  · unfold getEpsilon
    rw [helem]
    rfl
  · rw [lookupElem_eq_none_iff]
    intro hm
    rw [hmem vic.value hvicv, hvals2] at hm
    rcases List.mem_append.1 hm with h | h
    · rcases List.mem_append.1 h with h' | h'
      · exact hvicnot (List.mem_append_left _ h')
      · exact hvicv (by simpa using h')
    · exact hvicnot (List.mem_append_right _ h)
  · rw [hflds.2.1]
  · rw [hflds.2.2.1]

/-- Claim C1 witness: a full capacity-3 sketch with head bucket of count 1
holding values 10, 20, 30 encounters the fresh value 40; the conclusions are
evaluated at that input. -/
theorem encountered_replacement_spec_witness :
    ∃ s', encountered (fun _ => ()) (⟨3, 3, false, some (),
        [⟨1, [⟨10, 0⟩, ⟨20, 0⟩, ⟨30, 0⟩]⟩]⟩ : TopkVal Nat Unit) 40 = .ok s' ∧
      getCount s' 40 = 1 + 1 ∧
      getEpsilon s' 40 = 1 ∧
      lookupElem s'.buckets (10 : Nat) = none ∧
      s'.numElements = (3 : Nat) ∧ s'.pruned = false :=
  encountered_replacement_spec (fun _ => ())
    ⟨3, 3, false, some (), [⟨1, [⟨10, 0⟩, ⟨20, 0⟩, ⟨30, 0⟩]⟩]⟩ 40 ()
    ⟨1, [⟨10, 0⟩, ⟨20, 0⟩, ⟨30, 0⟩]⟩ ⟨10, 0⟩ [⟨20, 0⟩, ⟨30, 0⟩] []
    rfl rfl rfl rfl (by decide) rfl (by decide) (by decide)

/-! ## Claim C3 -/

/-- Claim C3 counterexample: Encountered of a fresh value on the
default-constructed sketch (capacity 0) does not complete: it reaches the
replacement branch and dereferences begin() of the empty bucket chain, so
the claim that the call completes without reaching an error or undefined
branch is false at this input. -/
theorem encountered_capacity_zero_counterexample :
    encountered (fun _ => ()) (topkDefault Nat Unit) 5 = .error .ubEmptyBuckets := by
  rfl

/-- Claim C3 amended: Encountered of a not-yet-retained value on an empty
sketch with capacity 0 reaches the minimum-replacement branch with an empty
bucket chain, which dereferences an invalid iterator (undefined behaviour);
the call does not complete, rather than completing with no insertion. -/
theorem encountered_capacity_zero_crashes (typeOf : V → T) (s : TopkVal V T) (v : V)
    (hsz : s.size = 0) (hn : s.numElements = 0) (hty : s.type = none)
    (hb : s.buckets = []) :
    encountered typeOf s v = .error .ubEmptyBuckets := by
  obtain ⟨sz, n, p, ty, bs⟩ := s
  simp only at hsz hn hty hb
  subst hsz hn hty hb
  rfl

/-- Claim C3 witness for the amended theorem at a concrete input. -/
theorem encountered_capacity_zero_crashes_witness :
    encountered (fun _ => ()) (topkDefault Nat Unit) 7 = .error .ubEmptyBuckets :=
  encountered_capacity_zero_crashes (fun _ => ()) (topkDefault Nat Unit) 7 rfl rfl rfl rfl

/-! ## Claim C10 -/

/-- Claim C10: merging a source sketch with an established type into a
default-constructed receiver (capacity 0, no type, no elements) runs the
whole element-copy loop and then fails the assert(size > 0), even when
doPrune is false.  The source only needs positive bucket counts (its own
invariant). -/
theorem merge_capacity_zero_assert (s src : TopkVal V T) (t : T) (dp : Bool)
    (hrs : s.size = 0) (hrty : s.type = none) (hrn : s.numElements = 0)
    (hrb : PositiveCounts s.buckets)
    (hsty : src.type = some t) (hsrcpos : PositiveCounts src.buckets) :
    merge s src dp = .error .sizeNotPositive := by
  obtain ⟨s1, hok, hP1, hsz⟩ := mergeAll_ok { s with type := some t } src.buckets hsrcpos hrb
  unfold merge
  rw [hsty, hrty]
  show (if s.numElements = 0 then mergeBody { s with type := some t } src dp
        else .error CFail.mergeReceiverNotEmpty) = .error CFail.sizeNotPositive
  rw [if_pos hrn]
  unfold mergeBody
  rw [hok]
  show (if 0 < s1.size then (if dp then pruneLoop s1.numElements s1 else .ok s1)
        else .error CFail.sizeNotPositive) = .error CFail.sizeNotPositive
  rw [if_neg (by rw [hsz]; show ¬0 < s.size; rw [hrs]; exact Nat.lt_irrefl 0)]

/-- Claim C10 witness at a concrete input: a one-element typed source merged
into the default receiver with doPrune = false. -/
theorem merge_capacity_zero_assert_witness :
    merge (topkDefault Nat Unit) (⟨4, 1, false, some (), [⟨2, [⟨7, 1⟩]⟩]⟩ : TopkVal Nat Unit)
      false = .error .sizeNotPositive :=
  merge_capacity_zero_assert (topkDefault Nat Unit)
    ⟨4, 1, false, some (), [⟨2, [⟨7, 1⟩]⟩]⟩ () false rfl rfl rfl (by decide) rfl (by decide)

/-! ## Claim C2 -/

/-- Claim C2 counterexample: after the stream A, B, C, D on a capacity-3
sketch the pruned flag is still false — the eviction in Encountered never
sets it, contrary to the claim that any eviction does. -/
theorem pruned_after_eviction_counterexample :
    Except.map (fun s => s.pruned)
      (encounteredStream (fun _ => ()) (topkInit Nat Unit 3) [1, 2, 3, 4]) = .ok false := rfl

/-- Claim C2 amended: pruned is set only by the merge prune loop; an
Encountered call never changes it (in particular an eviction leaves it
false), a Merge never resets it once true, and the stream A, B, C, D on a
capacity-3 sketch ends with pruned = false. -/
theorem pruned_merge_prune_only (typeOf : V → T) :
    (∀ (s s' : TopkVal V T) (v : V), encountered typeOf s v = .ok s' → s'.pruned = s.pruned) ∧
    (∀ (s src s' : TopkVal V T) (dp : Bool), merge s src dp = .ok s' → s.pruned = true →
      s'.pruned = true) ∧
    Except.map (fun s => s.pruned)
      (encounteredStream (fun _ => ()) (topkInit Nat Unit 3) [1, 2, 3, 4]) = .ok false :=
  ⟨fun s s' v h => encountered_pruned typeOf s s' v h,
   fun s src s' dp h hp => merge_pruned s src dp s' h hp,
   rfl⟩

/-- Claim C2 witness: the amended theorem applied at concrete inputs — one
Encountered call (pruned stays false) and one Merge into an already-pruned
receiver (pruned stays true). -/
theorem pruned_merge_prune_only_witness :
    (⟨3, 1, false, some (), [⟨1, [⟨5, 0⟩]⟩]⟩ : TopkVal Nat Unit).pruned =
      (topkInit Nat Unit 3).pruned ∧
    (⟨3, 0, true, some (), []⟩ : TopkVal Nat Unit).pruned = true :=
  ⟨(pruned_merge_prune_only (fun _ => ())).1 (topkInit Nat Unit 3)
      ⟨3, 1, false, some (), [⟨1, [⟨5, 0⟩]⟩]⟩ 5 rfl,
   (pruned_merge_prune_only (fun _ => ())).2.1 ⟨3, 0, true, some (), []⟩
      (topkDefault Nat Unit) ⟨3, 0, true, some (), []⟩ false rfl rfl⟩

/-! ## Claim C5 -/

theorem serBuckets_nil : (serBuckets ([] : List (Bucket V)) : List (BTok V T)) = [] := by
  simp [serBuckets]

theorem serBuckets_cons (b : Bucket V) (bs : List (Bucket V)) :
    (serBuckets (b :: bs) : List (BTok V T)) =
      .count b.elements.length :: .count b.count :: (serElems b.elements ++ serBuckets bs) := by
  simp [serBuckets]

theorem totalElems_cons (b : Bucket V) (bs : List (Bucket V)) :
    totalElems (b :: bs) = b.elements.length + totalElems bs := by
  simp [totalElems]

/-- Each bucket record is at least two entries long, so the chain never
outnumbers its own serialization. -/
theorem serBuckets_length (bs : List (Bucket V)) :
    bs.length ≤ (serBuckets bs : List (BTok V T)).length := by
  induction bs with
  | nil => simp [serBuckets]
  | cons b rest ih =>
    rw [serBuckets_cons]
    simp only [List.length_cons, List.length_append]
    omega

/-- Parsing the serialization of an element list at its own length consumes
exactly it and rebuilds the elements in order, provided the values are
distinct and none of them was seen before. -/
theorem parseElems_serialized (t0 : T) (es : List (Element V)) :
    ∀ (rest : List (BTok V T)) (seen : List V),
      (es.map (fun e => e.value)).Nodup →
      (∀ e ∈ es, e.value ∉ seen) →
      parseElems (some t0) es.length (serElems es ++ rest) seen =
        .ok (es, rest, (es.map (fun e => e.value)).reverse ++ seen) := by
  induction es with
  | nil => intro rest seen _ _; simp [parseElems, serElems]
  | cons e es ih =>
    intro rest seen hnd hs
    have hser : (serElems (e :: es) : List (BTok V T)) ++ rest =
        .count e.epsilon :: .val e.value :: (serElems es ++ rest) := by
      simp [serElems]
    have hnot : e.value ∉ seen := hs e (List.mem_cons_self e es)
    rw [List.map_cons] at hnd
    have hnotmem := (List.nodup_cons.1 hnd).1
    have hnd' := (List.nodup_cons.1 hnd).2
    have hs' : ∀ x ∈ es, x.value ∉ e.value :: seen := by
      intro x hx
      simp only [List.mem_cons]
      push_neg
      constructor
      · intro hxe
        exact hnotmem (List.mem_map.2 ⟨x, hx, hxe⟩)
      · exact hs x (List.mem_cons_of_mem e hx)
    rw [List.length_cons, hser]
    simp only [parseElems, toValTok]
    rw [if_neg hnot, ih rest (e.value :: seen) hnd' hs']
    simp [Except.map]

/-- Parsing the serialization of a chain of nonempty buckets whose element
total completes the declared count consumes exactly the bucket records and
rebuilds the chain, counts, elements and order included. -/
theorem parseChain_serialized (t0 : T) (bs : List (Bucket V)) :
    ∀ (fuel : Nat) (rest : List (BTok V T)) (seen : List V) (i n : Nat),
      bs.length < fuel →
      (chainValues bs).Nodup →
      (∀ v ∈ chainValues bs, v ∉ seen) →
      (∀ b ∈ bs, b.elements ≠ []) →
      i + totalElems bs = n →
      parseChain (some t0) fuel (serBuckets bs ++ rest) seen i n = .ok (bs, rest) := by
  induction bs with
  | nil =>
    intro fuel rest seen i n _ _ _ _ htot
    rw [totalElems] at htot
    have hin : ¬ i < n := by simp at htot; omega
    rw [serBuckets_nil, List.nil_append]
    unfold parseChain
    rw [if_neg hin]
  | cons b bs ih =>
    intro fuel rest seen i n hfuel hnd hseen hne htot
    have hblen : b.elements.length ≠ 0 := by
      intro h0
      exact hne b (List.mem_cons_self b bs) (List.eq_nil_of_length_eq_zero h0)
    rw [totalElems_cons] at htot
    have hin : i < n := by omega
    match fuel, hfuel with
    | fuel' + 1, hfuel =>
    have hfuel' : bs.length < fuel' := by
      rw [List.length_cons] at hfuel
      omega
    rw [chainValues_cons] at hnd hseen
    obtain ⟨hndb, hndbs, hdisj⟩ := List.nodup_append.1 hnd
    have hseenb : ∀ e ∈ b.elements, e.value ∉ seen := fun e he =>
      hseen e.value (List.mem_append_left _ (List.mem_map_of_mem _ he))
    have hseen' : ∀ v ∈ chainValues bs,
        v ∉ (b.elements.map (fun e => e.value)).reverse ++ seen := by
      intro v hv
      simp only [List.mem_append, List.mem_reverse]
      push_neg
      exact ⟨fun hvm => hdisj hvm hv, hseen v (List.mem_append_right _ hv)⟩
    have hne' : ∀ b1 ∈ bs, b1.elements ≠ [] := fun b1 hb1 =>
      hne b1 (List.mem_cons_of_mem b hb1)
    have hrec := ih fuel' rest ((b.elements.map (fun e => e.value)).reverse ++ seen)
      (i + b.elements.length) n hfuel' hndbs hseen' hne' (by omega)
    rw [serBuckets_cons, List.cons_append, List.cons_append, List.append_assoc]
    unfold parseChain
    rw [if_pos hin]
    show (parseElems (some t0) b.elements.length
        (serElems b.elements ++ (serBuckets bs ++ rest)) seen).bind (fun r =>
          (parseChain (some t0) fuel' r.2.1 r.2.2 (i + b.elements.length) n).map
            (fun q => (⟨b.count, r.1⟩ :: q.1, q.2))) = .ok (b :: bs, rest)
    rw [parseElems_serialized t0 b.elements (serBuckets bs ++ rest) seen hndb hseenb]
    show (parseChain (some t0) fuel' (serBuckets bs ++ rest)
        ((b.elements.map (fun e => e.value)).reverse ++ seen) (i + b.elements.length) n).map
          (fun q => (⟨b.count, b.elements⟩ :: q.1, q.2)) = .ok (b :: bs, rest)
    rw [hrec]
    rfl

/-- The typed-header branch of DoUnserialize, written out: parse the bucket
records with the fuel the payload length affords and reject trailing data. -/
theorem doUnserialize_typ_eqn (sz nE : Nat) (pr : Bool) (t0 : T) (rest : List (BTok V T)) :
    doUnserialize (.count sz :: .count nE :: .bool pr :: .typ t0 :: rest) =
      (match parseChain (some t0)
          ((.count sz :: .count nE :: .bool pr :: .typ t0 :: rest : List (BTok V T)).length + 1)
          rest [] 0 nE with
        | .error .reject => DRes.reject
        | .error .dupElement => DRes.dupElement
        | .ok (bs, leftover) =>
          if leftover.isEmpty then DRes.ok ⟨sz, nE, pr, some t0, bs⟩ else DRes.reject) := rfl

/-- Claim C5: deserializing the serialization of a well-formed sketch —
distinct element values, no empty bucket, and a type as soon as anything is
retained, all invariants the code maintains — returns a structurally equal
sketch: capacity, num_elements, the pruned flag, the type, and the bucket
chain itself with its counts, its order, and every element value and epsilon
in order are preserved (hence so is the multiset of (bucket count, element
value, element epsilon) triples). -/
theorem serialize_roundtrip (s : TopkVal V T) (toks : List (BTok V T))
    (hnd : (chainValues s.buckets).Nodup)
    (hne : ∀ b ∈ s.buckets, b.elements ≠ [])
    (hty : s.buckets ≠ [] → s.type.isSome)
    (h : doSerialize s = .ok toks) :
    doUnserialize toks = .ok s := by
  unfold doSerialize at h
  by_cases hcnt : (s.buckets.map (fun b => b.elements.length)).sum = s.numElements
  · rw [if_pos hcnt] at h
    injection h with h2
    subst h2
    cases hsty : s.type with
    | none =>
      have hbs : s.buckets = [] := by
        by_contra hbne
        have hsome := hty hbne
        rw [hsty] at hsome
        simp at hsome
      have hnE : s.numElements = 0 := by
        rw [hbs] at hcnt
        simpa using hcnt.symm
      rw [hnE, hbs]
      show (DRes.ok ⟨s.size, 0, s.pruned, none, []⟩ : DRes V T) = .ok s
      rw [← hnE, ← hbs, ← hsty]
    | some t0 =>
      show doUnserialize (.count s.size :: .count s.numElements :: .bool s.pruned ::
        .typ t0 :: serBuckets s.buckets) = .ok s
      have hfuel : s.buckets.length <
          (.count s.size :: .count s.numElements :: .bool s.pruned :: .typ t0 ::
            serBuckets s.buckets : List (BTok V T)).length + 1 := by
        have hsb := serBuckets_length (T := T) s.buckets
        simp only [List.length_cons]
        omega
      have htot : 0 + totalElems s.buckets = s.numElements := by
        simp only [Nat.zero_add, totalElems]
        exact hcnt
      have hpc : parseChain (some t0)
          ((.count s.size :: .count s.numElements :: .bool s.pruned :: .typ t0 ::
            serBuckets s.buckets : List (BTok V T)).length + 1)
          (serBuckets s.buckets) [] 0 s.numElements = .ok (s.buckets, []) := by
        have hser := parseChain_serialized t0 s.buckets
          ((.count s.size :: .count s.numElements :: .bool s.pruned :: .typ t0 ::
            serBuckets s.buckets : List (BTok V T)).length + 1)
          [] [] 0 s.numElements hfuel hnd (fun v _ => List.not_mem_nil v) hne htot
        simpa using hser
      rw [doUnserialize_typ_eqn, hpc]
      show (DRes.ok ⟨s.size, s.numElements, s.pruned, some t0, s.buckets⟩ : DRes V T) = .ok s
      rw [← hsty]
  · rw [if_neg hcnt] at h
    cases h

/-- Claim C5 witness: the round trip at a concrete two-bucket sketch. -/
theorem serialize_roundtrip_witness :
    doUnserialize ([.count 3, .count 2, .bool true, .typ (), .count 1, .count 1, .count 0,
        .val 5, .count 1, .count 3, .count 1, .val 7] : List (BTok Nat Unit)) =
      .ok ⟨3, 2, true, some (), [⟨1, [⟨5, 0⟩]⟩, ⟨3, [⟨7, 1⟩]⟩]⟩ :=
  serialize_roundtrip (⟨3, 2, true, some (), [⟨1, [⟨5, 0⟩]⟩, ⟨3, [⟨7, 1⟩]⟩]⟩ : TopkVal Nat Unit)
    ([.count 3, .count 2, .bool true, .typ (), .count 1, .count 1, .count 0,
        .val 5, .count 1, .count 3, .count 1, .val 7])
    (by decide) (by decide) (by decide) rfl

end Topk
